import Mathlib

/-!
Verification of the auction-draft helper (src/main.py): fuzzy matching,
pricing engine, team registry, and the commit/undo draft state machine.

Modelling conventions:
* Python floats are modelled as exact rationals (ℚ), Python ints as ℤ.
* Python dicts are association lists in insertion order (`alGet`/`alSet`/
  `alErase` mirror `d[k]`, `d[k] = v`, `del d[k]` for dicts, whose keys are
  unique).
* Python sets of strings are duplicate-free lists, compared as sets.
* Python strings are Lean `String` (draft state) or `List Char`
  (the fuzzy matcher, which indexes into strings).
-/

section AssocList

variable {K V : Type} [DecidableEq K]

/-- Dict read: value of the first binding of `key` (`d.get(key)`). -/
def alGet : List (K × V) → K → Option V
  | [], _ => none
  | (k, v) :: rest, key => if key = k then some v else alGet rest key

/-- Dict write `d[key] = val`: replace the first binding in place, else append. -/
def alSet : List (K × V) → K → V → List (K × V)
  | [], key, val => [(key, val)]
  | (k, v) :: rest, key, val =>
      if key = k then (key, val) :: rest else (k, v) :: alSet rest key val

/-- Dict delete `del d[key]`: drop the first binding of `key`. -/
def alErase : List (K × V) → K → List (K × V)
  | [], _ => []
  | (k, v) :: rest, key => if key = k then rest else (k, v) :: alErase rest key

theorem alGet_alSet_self (d : List (K × V)) (k : K) (v : V) :
    alGet (alSet d k v) k = some v := by
  induction d with
  | nil => simp [alGet, alSet]
  | cons hd tl ih =>
      by_cases h : k = hd.1
      · simp [alGet, alSet, h]
      · simp [alGet, alSet, h, ih]

theorem alGet_alSet_ne (d : List (K × V)) (k k' : K) (v : V) (h : k' ≠ k) :
    alGet (alSet d k v) k' = alGet d k' := by
  induction d with
  | nil => simp [alGet, alSet, h]
  | cons hd tl ih =>
      by_cases hk : k = hd.1
      · simp [alGet, alSet, hk, h]
        subst hk
        simp [alGet, h]
      · by_cases hk' : k' = hd.1
        · simp [alGet, alSet, hk, hk']
        · simp [alGet, alSet, hk, hk', ih]

theorem alGet_alSet (d : List (K × V)) (k k' : K) (v : V) :
    alGet (alSet d k v) k' = if k' = k then some v else alGet d k' := by
  by_cases h : k' = k
  · subst h; simp [alGet_alSet_self]
  · simp [h, alGet_alSet_ne d k k' v h]

theorem alSet_alSet (d : List (K × V)) (k : K) (v w : V) :
    alSet (alSet d k v) k w = alSet d k w := by
  induction d with
  | nil => simp [alSet]
  | cons hd tl ih =>
      by_cases h : k = hd.1
      · simp [alSet, h]
      · simp [alSet, h, ih]

theorem alSet_alGet_eq (d : List (K × V)) (k : K) (v : V) (h : alGet d k = some v) :
    alSet d k v = d := by
  induction d with
  | nil => simp [alGet] at h
  | cons hd tl ih =>
      rcases hd with ⟨k0, v0⟩
      by_cases hk : k = k0
      · subst hk
        simp [alGet] at h
        simp [alSet, h]
      · simp [alGet, hk] at h
        simp [alSet, hk, ih h]

theorem alErase_alSet_of_none (d : List (K × V)) (k : K) (v : V)
    (h : alGet d k = none) : alErase (alSet d k v) k = d := by
  induction d with
  | nil => simp [alSet, alErase]
  | cons hd tl ih =>
      by_cases hk : k = hd.1
      · simp [alGet, hk] at h
      · simp [alGet, hk] at h
        simp [alSet, alErase, hk, ih h]

theorem alGet_mem (d : List (K × V)) (k : K) (v : V) (h : alGet d k = some v) :
    (k, v) ∈ d := by
  induction d with
  | nil => simp [alGet] at h
  | cons hd tl ih =>
      rcases hd with ⟨k0, v0⟩
      by_cases hk : k = k0
      · subst hk
        simp [alGet] at h
        subst h
        exact List.mem_cons_self _ _
      · simp [alGet, hk] at h
        exact List.mem_cons_of_mem _ (ih h)

theorem alGet_isSome_alSet (d : List (K × V)) (k k' : K) (v : V)
    (h : (alGet d k').isSome = true) : (alGet (alSet d k v) k').isSome = true := by
  rw [alGet_alSet]
  by_cases hk : k' = k <;> simp [hk, h]

/-- Keys of an association list. -/
def alKeys (d : List (K × V)) : List K := d.map Prod.fst

theorem alKeys_nil : alKeys ([] : List (K × V)) = [] := rfl

theorem alKeys_cons (hd : K × V) (tl : List (K × V)) :
    alKeys (hd :: tl) = hd.1 :: alKeys tl := rfl

theorem alSet_cons (hd : K × V) (tl : List (K × V)) (k : K) (v : V) :
    alSet (hd :: tl) k v =
      if k = hd.1 then (k, v) :: tl else hd :: alSet tl k v := rfl

theorem alErase_cons (hd : K × V) (tl : List (K × V)) (k : K) :
    alErase (hd :: tl) k = if k = hd.1 then tl else hd :: alErase tl k := rfl

theorem alGet_cons (hd : K × V) (tl : List (K × V)) (k : K) :
    alGet (hd :: tl) k = if k = hd.1 then some hd.2 else alGet tl k := rfl

theorem alGet_eq_none_iff (d : List (K × V)) (k : K) :
    alGet d k = none ↔ k ∉ alKeys d := by
  induction d with
  | nil => simp [alGet, alKeys]
  | cons hd tl ih =>
      rw [alGet_cons, alKeys_cons, List.mem_cons]
      by_cases hk : k = hd.1
      · simp [hk]
      · simp only [if_neg hk, ih]
        constructor
        · intro h hc
          rcases hc with hc | hc
          · exact hk hc
          · exact h hc
        · intro h hc
          exact h (Or.inr hc)

theorem alKeys_alSet_mem (d : List (K × V)) (k : K) (v : V) (a : K)
    (ha : a ∈ alKeys (alSet d k v)) : a = k ∨ a ∈ alKeys d := by
  induction d with
  | nil =>
      simp only [alSet, alKeys_cons, alKeys_nil, List.mem_singleton] at ha
      exact Or.inl ha
  | cons hd tl ih =>
      rw [alSet_cons] at ha
      by_cases hk : k = hd.1
      · rw [if_pos hk, alKeys_cons, List.mem_cons] at ha
        rcases ha with ha | ha
        · exact Or.inl ha
        · exact Or.inr (by rw [alKeys_cons, List.mem_cons]; exact Or.inr ha)
      · rw [if_neg hk, alKeys_cons, List.mem_cons] at ha
        rcases ha with ha | ha
        · exact Or.inr (by rw [alKeys_cons, List.mem_cons]; exact Or.inl ha)
        · rcases ih ha with h' | h'
          · exact Or.inl h'
          · exact Or.inr (by rw [alKeys_cons, List.mem_cons]; exact Or.inr h')

theorem alKeys_alErase_mem (d : List (K × V)) (k : K) (a : K)
    (ha : a ∈ alKeys (alErase d k)) : a ∈ alKeys d := by
  induction d with
  | nil => simpa [alErase, alKeys] using ha
  | cons hd tl ih =>
      rw [alErase_cons] at ha
      rw [alKeys_cons, List.mem_cons]
      by_cases hk : k = hd.1
      · rw [if_pos hk] at ha
        exact Or.inr ha
      · rw [if_neg hk, alKeys_cons, List.mem_cons] at ha
        rcases ha with ha | ha
        · exact Or.inl ha
        · exact Or.inr (ih ha)

theorem alKeys_nodup_alSet (d : List (K × V)) (k : K) (v : V)
    (h : (alKeys d).Nodup) : (alKeys (alSet d k v)).Nodup := by
  induction d with
  | nil => simp [alSet, alKeys]
  | cons hd tl ih =>
      rw [alKeys_cons, List.nodup_cons] at h
      rw [alSet_cons]
      by_cases hk : k = hd.1
      · rw [if_pos hk, alKeys_cons, List.nodup_cons]
        exact ⟨by rw [hk]; exact h.1, h.2⟩
      · rw [if_neg hk, alKeys_cons, List.nodup_cons]
        refine ⟨?_, ih h.2⟩
        intro hc
        rcases alKeys_alSet_mem tl k v hd.1 hc with h' | h'
        · exact hk h'.symm
        · exact h.1 h'

theorem alKeys_nodup_alErase (d : List (K × V)) (k : K)
    (h : (alKeys d).Nodup) : (alKeys (alErase d k)).Nodup := by
  induction d with
  | nil => simp [alErase, alKeys]
  | cons hd tl ih =>
      rw [alKeys_cons, List.nodup_cons] at h
      rw [alErase_cons]
      by_cases hk : k = hd.1
      · rw [if_pos hk]; exact h.2
      · rw [if_neg hk, alKeys_cons, List.nodup_cons]
        exact ⟨fun hc => h.1 (alKeys_alErase_mem tl k hd.1 hc), ih h.2⟩

theorem alGet_alErase_self (d : List (K × V)) (k : K)
    (h : (alKeys d).Nodup) : alGet (alErase d k) k = none := by
  induction d with
  | nil => simp [alErase, alGet]
  | cons hd tl ih =>
      rw [alKeys_cons, List.nodup_cons] at h
      rw [alErase_cons]
      by_cases hk : k = hd.1
      · rw [if_pos hk]
        refine (alGet_eq_none_iff tl k).mpr ?_
        rw [hk]
        exact h.1
      · rw [if_neg hk, alGet_cons, if_neg hk]
        exact ih h.2

theorem alGet_alErase_ne (d : List (K × V)) (k k' : K) (h : k' ≠ k) :
    alGet (alErase d k) k' = alGet d k' := by
  induction d with
  | nil => simp [alErase]
  | cons hd tl ih =>
      by_cases hk : k = hd.1
      · subst hk
        simp [alErase, alGet, h]
      · by_cases hk' : k' = hd.1
        · simp [alErase, alGet, hk, hk']
        · simp [alErase, alGet, hk, hk', ih]

end AssocList

/-- Python `round`: nearest integer, ties to even (banker's rounding). -/
def pythonRound (x : ℚ) : ℤ :=
  if x - ⌊x⌋ < 1/2 then ⌊x⌋
  else if (1:ℚ)/2 < x - ⌊x⌋ then ⌊x⌋ + 1
  else if ⌊x⌋ % 2 = 0 then ⌊x⌋ else ⌊x⌋ + 1

theorem pythonRound_ge_floor (x : ℚ) : ⌊x⌋ ≤ pythonRound x := by
  unfold pythonRound
  split_ifs <;> omega

theorem pythonRound_le_floor_add_one (x : ℚ) : pythonRound x ≤ ⌊x⌋ + 1 := by
  unfold pythonRound
  split_ifs <;> omega

theorem pythonRound_mono (x y : ℚ) (h : x ≤ y) : pythonRound x ≤ pythonRound y := by
  rcases lt_or_eq_of_le (Int.floor_mono h) with hf | hf
  · calc pythonRound x ≤ ⌊x⌋ + 1 := pythonRound_le_floor_add_one x
      _ ≤ ⌊y⌋ := by omega
      _ ≤ pythonRound y := pythonRound_ge_floor y
  · unfold pythonRound
    rw [← hf]
    split_ifs <;> first | omega | linarith

-- --- Data model (src/main.py) ---

/-- One row of the salaries table: `name`, `position`, `salary`, optional `tier`. -/
structure Player where
  name : String
  position : String
  salary : ℤ
  tier : Option String
deriving DecidableEq, Repr

/-- `Team` dataclass: name, budget (default 200), spent, roster position→count. -/
structure Team where
  name : String
  budget : ℤ
  spent : ℤ
  roster : List (String × ℤ)
deriving DecidableEq, Repr

def DEFAULT_BUDGET : ℤ := 200

def MY_TEAM_NAME : String := "me"

/-- `Team(name=raw)`: dataclass defaults budget=200, spent=0, roster empty. -/
def mkTeam (name : String) : Team := ⟨name, DEFAULT_BUDGET, 0, []⟩

/-- `Team.remaining` property: `budget - spent`. -/
def Team.remaining (t : Team) : ℤ := t.budget - t.spent

-- Pricing constants from src/main.py
def CAP_MIN : ℚ := 0.6
def CAP_MAX : ℚ := 1.3
def NEED_MULT_HIGH : ℚ := 1.10
def NEED_MULT_MED : ℚ := 1.02
def NEED_MULT_LOW : ℚ := 0.85
def SUPPLY_WEIGHT : ℚ := 0.25
def SUPPLY_WEIGHT_MED : ℚ := 0.10
def TIER_GAP_WEIGHT : ℚ := 0.5
def INFLATION_MIN : ℚ := 0.85
def INFLATION_MAX : ℚ := 1.15

-- --- Pricing engine ---

/-- Python `str.upper()` for the character data of a string (ASCII-faithful;
works on `String.data` so that it evaluates inside the kernel). -/
def strUpper (s : String) : String := String.mk (s.data.map Char.toUpper)

/-- Source `_clamp`: `max(lo, min(hi, v))`. -/
def _clamp (v lo hi : ℚ) : ℚ := max lo (min hi v)

theorem _clamp_lower (v lo hi : ℚ) : lo ≤ _clamp v lo hi := le_max_left _ _

theorem _clamp_upper (v lo hi : ℚ) (h : lo ≤ hi) : _clamp v lo hi ≤ hi :=
  max_le h (min_le_left _ _)

/-- Source `_requirements`. -/
def _requirements : List (String × ℤ) :=
  [("QB", 1), ("RB", 2), ("WR", 2), ("TE", 1), ("D/ST", 1), ("K", 1), ("FLEX", 1)]

/-- Source `_flex_used`: RB/WR/TE overflow capped by the FLEX requirement. -/
def _flex_used (roster : List (String × ℤ)) (req : List (String × ℤ)) : ℤ :=
  let overflow :=
    (["RB", "WR", "TE"].map fun pos =>
      max 0 ((alGet roster pos).getD 0 - (alGet req pos).getD 0)).sum
  min ((alGet req "FLEX").getD 0) overflow

/-- Source `_need_level`: "high" / "med" / "low". -/
def _need_level (team : Team) (pos : String) (req : List (String × ℤ)) : String :=
  let pos := strUpper pos
  let have_ := (alGet team.roster pos).getD 0
  let base_need := max 0 ((alGet req pos).getD 0 - have_)
  if base_need > 0 then "high"
  else
    let flex_left := (alGet req "FLEX").getD 0 - _flex_used team.roster req
    if (pos = "RB" ∨ pos = "WR" ∨ pos = "TE") ∧ flex_left > 0 then "med" else "low"

/-- `df.loc[~df["name"].isin(drafted), "salary"].sum()`. -/
def remainingValue (df : List Player) (drafted : List String) : ℤ :=
  ((df.filter fun p => decide (p.name ∉ drafted)).map Player.salary).sum

/-- Source `_inflation_factor`. -/
def _inflation_factor (teams : List (String × Team)) (df : List Player)
    (drafted : List String) : ℚ :=
  let remaining_value := remainingValue df drafted
  if remaining_value ≤ 0 ∨ teams = [] then 1
  else
    let spendable : ℤ := (teams.map fun kv => kv.2.remaining).sum
    _clamp ((spendable : ℚ) / (remaining_value : ℚ)) INFLATION_MIN INFLATION_MAX

/-- Rows at `pos` (already uppercased) not yet drafted. -/
def remainingCount (df : List Player) (drafted : List String) (pos : String) : ℕ :=
  (df.filter fun p => decide (strUpper p.position = pos) && decide (p.name ∉ drafted)).length

/-- Source `_supply_factor`; `not init_cnt or init_cnt <= 0` is the
`none`/`≤ 0` split below. -/
def _supply_factor (df : List Player) (drafted : List String) (pos : String)
    (need_level : String) (pos_initial_counts : List (String × ℤ)) : ℚ :=
  let posU := strUpper pos
  match alGet pos_initial_counts posU with
  | none => 1
  | some init_cnt =>
      if init_cnt ≤ 0 then 1
      else
        let remaining_cnt := remainingCount df drafted posU
        let scarcity := max 0 (1 - (remaining_cnt : ℚ) / (init_cnt : ℚ))
        if need_level = "high" then 1 + scarcity * SUPPLY_WEIGHT
        else if need_level = "med" then 1 + scarcity * SUPPLY_WEIGHT_MED
        else 1

/-- Stable descending insertion by an integer key (models sorting by
descending salary; order among equal keys is not observable to any claim). -/
def insertByDesc {α : Type} (key : α → ℤ) (x : α) : List α → List α
  | [] => [x]
  | y :: ys => if key x ≤ key y then y :: insertByDesc key x ys else x :: y :: ys

def sortByDesc {α : Type} (key : α → ℤ) (l : List α) : List α :=
  l.foldl (fun acc x => insertByDesc key x acc) []

def dummyPlayer : Player := ⟨"", "", 0, none⟩

/-- Source `_tier_gap_factor`. -/
def _tier_gap_factor (df : List Player) (drafted : List String) (pos : String)
    (player_salary : ℤ) (player_name : String) : ℚ :=
  let remaining :=
    df.filter fun p => decide (strUpper p.position = strUpper pos) && decide (p.name ∉ drafted)
  if remaining = [] then 1
  else
    let sortedRem := sortByDesc Player.salary remaining
    let names := sortedRem.map Player.name
    match names.findIdx? (fun n => decide (n = player_name)) with
    | none => 1
    | some idx =>
        let cur := max 1 player_salary
        if sortedRem.length ≤ idx + 1 then 1
        else
          let nxt := (sortedRem.getD (idx + 1) dummyPlayer).salary
          let gap_ratio := max 0 (((cur - nxt : ℤ) : ℚ) / (cur : ℚ))
          1 + min 0.2 (gap_ratio * TIER_GAP_WEIGHT)

/-- `astype(str)` view of the tier cell (`NaN` prints as "nan"). -/
def tierStr (p : Player) : String :=
  match p.tier with
  | some s => s
  | none => "nan"

/-- Source `_tier_scarcity_factor`. -/
def _tier_scarcity_factor (df : List Player) (drafted : List String) (pos : String)
    (tier_value : Option String) (need_level : String) : ℚ :=
  match tier_value with
  | none => 1
  | some tv =>
      if tv = "" then 1
      else
        let pos_up := strUpper pos
        let remaining_in_tier :=
          (df.filter fun p =>
            decide (strUpper p.position = pos_up) && decide (p.name ∉ drafted) &&
              decide (tierStr p = tv)).length
        if need_level = "high" ∧ remaining_in_tier ≤ 1 then 1.10
        else if need_level = "high" ∧ remaining_in_tier ≤ 3 then 1.05
        else if need_level = "med" ∧ remaining_in_tier ≤ 1 then 1.05
        else 1

/-- `teams.get(my_team_name)` and the auto-create block in `adjusted_salary`. -/
def ensureMyTeam (teams : List (String × Team)) (my : String) : List (String × Team) :=
  if (alGet teams my).isSome then teams else alSet teams my (mkTeam my)

/-- Source `adjusted_salary`.  Returns the suggested price and the (possibly
extended, via my-team auto-creation) teams dict.  `df`, `drafted` and
`pos_initial_counts` are read-only in the source and so are not returned. -/
def adjusted_salary (row : Player) (df : List Player) (teams : List (String × Team))
    (drafted : List String) (pos_initial_counts : List (String × ℤ))
    (my_team_name : String) : ℤ × List (String × Team) :=
  let base := row.salary
  let pos := strUpper row.position
  let name := row.name
  let tier_value := row.tier
  let f_inflation := _inflation_factor teams df drafted
  let teams1 := ensureMyTeam teams my_team_name
  let my_team := (alGet teams1 my_team_name).getD (mkTeam my_team_name)
  let req := _requirements
  let level := _need_level my_team pos req
  let f_need :=
    if level = "high" then NEED_MULT_HIGH
    else if level = "med" then NEED_MULT_MED
    else NEED_MULT_LOW
  let mult :=
    1 * f_inflation * f_need * _supply_factor df drafted pos level pos_initial_counts *
      _tier_gap_factor df drafted pos base name *
      _tier_scarcity_factor df drafted pos tier_value level
  (pythonRound ((base : ℚ) * _clamp mult CAP_MIN CAP_MAX), teams1)

theorem pythonRound_clamp_bounds (b m : ℚ) (hb : 0 ≤ b) :
    pythonRound (b * CAP_MIN) ≤ pythonRound (b * _clamp m CAP_MIN CAP_MAX) ∧
      pythonRound (b * _clamp m CAP_MIN CAP_MAX) ≤ pythonRound (b * CAP_MAX) := by
  constructor
  · exact pythonRound_mono _ _ (mul_le_mul_of_nonneg_left (_clamp_lower m _ _) hb)
  · refine pythonRound_mono _ _ (mul_le_mul_of_nonneg_left (_clamp_upper m _ _ ?_) hb)
    unfold CAP_MIN CAP_MAX
    norm_num

/-- C1: for every player row with non-negative base salary and any teams
mapping, drafted set and initial position counts, the price returned by
`adjusted_salary` lies within `[round(base*0.6), round(base*1.3)]`: the
factor product is clamped once to `[CAP_MIN, CAP_MAX]` at the end and only
then multiplied by the base salary and rounded. -/
theorem adjusted_salary_cap_bounds (row : Player) (df : List Player)
    (teams : List (String × Team)) (drafted : List String)
    (counts : List (String × ℤ)) (my : String) (h : 0 ≤ row.salary) :
    pythonRound ((row.salary : ℚ) * CAP_MIN) ≤
        (adjusted_salary row df teams drafted counts my).1 ∧
      (adjusted_salary row df teams drafted counts my).1 ≤
        pythonRound ((row.salary : ℚ) * CAP_MAX) := by
  have hq : (0 : ℚ) ≤ (row.salary : ℚ) := by exact_mod_cast h
  simp only [adjusted_salary]
  exact pythonRound_clamp_bounds _ _ hq

def playerCapW : Player := ⟨"A", "QB", 10, none⟩

/-- Witness for C1 at a concrete input. -/
theorem adjusted_salary_cap_bounds_witness :
    pythonRound ((playerCapW.salary : ℚ) * CAP_MIN) ≤
        (adjusted_salary playerCapW [] [] [] [] "me").1 ∧
      (adjusted_salary playerCapW [] [] [] [] "me").1 ≤
        pythonRound ((playerCapW.salary : ℚ) * CAP_MAX) :=
  adjusted_salary_cap_bounds playerCapW [] [] [] [] "me" (by decide)

-- --- C6: inflation factor ---

/-- C6: the inflation factor is `clamp(totalRemainingBudget / remainingValue,
0.85, 1.15)`, is exactly 1 when the teams dict is empty or the remaining
undrafted base-salary value is ≤ 0, and is exactly 1 in the single-team
scenario where the team's remaining budget and the catalog's undrafted value
both equal the default budget. -/
theorem inflation_factor_spec (teams : List (String × Team)) (df : List Player)
    (drafted : List String) :
    (teams = [] → _inflation_factor teams df drafted = 1) ∧
      (remainingValue df drafted ≤ 0 → _inflation_factor teams df drafted = 1) ∧
      (teams ≠ [] → 0 < remainingValue df drafted →
        _inflation_factor teams df drafted =
          _clamp (((teams.map fun kv => kv.2.remaining).sum : ℚ) /
              (remainingValue df drafted : ℚ)) INFLATION_MIN INFLATION_MAX) ∧
      (∀ (nm : String) (t : Team), t.remaining = DEFAULT_BUDGET →
        remainingValue df drafted = DEFAULT_BUDGET →
        _inflation_factor [(nm, t)] df drafted = 1) := by
  refine ⟨?_, ?_, ?_, ?_⟩
  · intro h
    simp [_inflation_factor, h]
  · intro h
    simp [_inflation_factor, h]
  · intro h1 h2
    have hcond : ¬(remainingValue df drafted ≤ 0 ∨ teams = []) := by
      push_neg
      exact ⟨by omega, h1⟩
    simp only [_inflation_factor, if_neg hcond]
    push_cast
    rw [List.map_map]
    rfl
  · intro nm t hrem hval
    have hcond : ¬(remainingValue df drafted ≤ 0 ∨
        ([(nm, t)] : List (String × Team)) = []) := by
      push_neg
      refine ⟨by rw [hval]; unfold DEFAULT_BUDGET; omega, by simp⟩
    simp only [_inflation_factor, if_neg hcond]
    simp only [List.map_cons, List.map_nil, List.sum_cons, List.sum_nil, hrem, hval]
    unfold _clamp DEFAULT_BUDGET INFLATION_MIN INFLATION_MAX
    norm_num

def teamInfW : Team := ⟨"A", 200, 0, []⟩

def playerInfW : Player := ⟨"P", "QB", 200, none⟩

/-- Witness for C6 in the single-team scenario. -/
theorem inflation_factor_spec_witness :
    _inflation_factor [("A", teamInfW)] [playerInfW] [] = 1 :=
  (inflation_factor_spec [("A", teamInfW)] [playerInfW] []).2.2.2 "A" teamInfW
    (by decide) (by decide)

-- --- C7: supply factor ---

/-- C7: the supply factor equals `1 + max(0, 1 - remaining/initial) * weight`
with weight 0.25 for "high" need, 0.10 for "med", 0 for "low"; and whenever
the initial count for the position is absent or ≤ 0 on record, the factor is
exactly 1 regardless of need level and drafted set. -/
theorem supply_factor_spec (df : List Player) (drafted : List String)
    (pos need_level : String) (counts : List (String × ℤ)) :
    (alGet counts (strUpper pos) = none →
        _supply_factor df drafted pos need_level counts = 1) ∧
      (∀ c : ℤ, alGet counts (strUpper pos) = some c → c ≤ 0 →
        _supply_factor df drafted pos need_level counts = 1) ∧
      (∀ c : ℤ, alGet counts (strUpper pos) = some c → 0 < c →
        _supply_factor df drafted pos need_level counts =
          1 + max 0 (1 - (remainingCount df drafted (strUpper pos) : ℚ) / (c : ℚ)) *
            (if need_level = "high" then SUPPLY_WEIGHT
             else if need_level = "med" then SUPPLY_WEIGHT_MED else 0)) := by
  refine ⟨?_, ?_, ?_⟩
  · intro h
    simp [_supply_factor, h]
  · intro c h hc
    simp only [_supply_factor, h]
    rw [if_pos hc]
  · intro c h hc
    simp only [_supply_factor, h]
    rw [if_neg (by omega : ¬c ≤ 0)]
    by_cases h1 : need_level = "high"
    · simp [h1]
    · by_cases h2 : need_level = "med"
      · simp [h1, h2]
      · simp [h1, h2]

/-- Witness for C7: position with zero initial count on record gives 1. -/
theorem supply_factor_spec_witness :
    _supply_factor [playerInfW] [] "QB" "high" [("QB", 0)] = 1 :=
  (supply_factor_spec [playerInfW] [] "QB" "high" [("QB", 0)]).2.1 0 (by decide)
    (by decide)

-- --- C10: adjusted_salary frame ---

/-- C10: computing a suggested price never modifies the catalog, drafted set
or history (they are read-only inputs of `adjusted_salary` in the source; the
returned teams dict is its only mutation surface), and the teams dict is
unchanged when the my-team key exists; otherwise its only change is the
insertion of a fresh team under that key with default budget 200, zero spent
and empty roster, all other keys unaffected. -/
theorem adjusted_salary_frame (row : Player) (df : List Player)
    (teams : List (String × Team)) (drafted : List String)
    (counts : List (String × ℤ)) (my : String) :
    ((alGet teams my).isSome = true →
        (adjusted_salary row df teams drafted counts my).2 = teams) ∧
      (alGet teams my = none →
        (adjusted_salary row df teams drafted counts my).2 =
            alSet teams my (Team.mk my DEFAULT_BUDGET 0 []) ∧
          alGet (adjusted_salary row df teams drafted counts my).2 my =
            some (Team.mk my DEFAULT_BUDGET 0 []) ∧
          ∀ k, k ≠ my →
            alGet (adjusted_salary row df teams drafted counts my).2 k =
              alGet teams k) := by
  constructor
  · intro h
    simp only [adjusted_salary, ensureMyTeam, h, if_pos]
  · intro h
    have hs : (alGet teams my).isSome = false := by rw [h]; rfl
    refine ⟨?_, ?_, ?_⟩
    · simp only [adjusted_salary, ensureMyTeam, hs, Bool.false_eq_true, if_false]
      rfl
    · simp only [adjusted_salary, ensureMyTeam, hs, Bool.false_eq_true, if_false]
      exact alGet_alSet_self teams my (mkTeam my)
    · intro k hk
      simp only [adjusted_salary, ensureMyTeam, hs, Bool.false_eq_true, if_false]
      exact alGet_alSet_ne teams my k (mkTeam my) hk

/-- Witness for C10: auto-creation of the my-team on an empty teams dict. -/
theorem adjusted_salary_frame_witness :
    (adjusted_salary playerInfW [playerInfW] [] [] [] "me").2 =
      alSet [] "me" (Team.mk "me" DEFAULT_BUDGET 0 []) :=
  ((adjusted_salary_frame playerInfW [playerInfW] [] [] [] "me").2 rfl).1

-- --- C4: factor order sensitivity ---

/-- Modelled from the spec sentence "all five factors are independent and
order-insensitive": the same pricing computation, but with the need-factor
step (including its my-team auto-creation) performed before the inflation
factor, which then reads the possibly-extended teams dict. -/
def adjusted_salary_needFirst (row : Player) (df : List Player)
    (teams : List (String × Team)) (drafted : List String)
    (pos_initial_counts : List (String × ℤ)) (my_team_name : String) :
    ℤ × List (String × Team) :=
  let base := row.salary
  let pos := strUpper row.position
  let name := row.name
  let tier_value := row.tier
  let teams1 := ensureMyTeam teams my_team_name
  let my_team := (alGet teams1 my_team_name).getD (mkTeam my_team_name)
  let req := _requirements
  let level := _need_level my_team pos req
  let f_need :=
    if level = "high" then NEED_MULT_HIGH
    else if level = "med" then NEED_MULT_MED
    else NEED_MULT_LOW
  let f_inflation := _inflation_factor teams1 df drafted
  let mult :=
    1 * f_inflation * f_need * _supply_factor df drafted pos level pos_initial_counts *
      _tier_gap_factor df drafted pos base name *
      _tier_scarcity_factor df drafted pos tier_value level
  (pythonRound ((base : ℚ) * _clamp mult CAP_MIN CAP_MAX), teams1)

def teamOrd : Team := ⟨"A", 200, 0, []⟩

def playerOrd : Player := ⟨"P", "QB", 200, none⟩

/-- C4 counterexample: with one pre-existing team "A", an absent my-team and a
one-player catalog, computing the need factor (with its my-team
auto-creation) before the inflation factor changes the suggested price
(220 vs 253), so the factors are not order-insensitive. -/
theorem factor_order_counterexample :
    (adjusted_salary playerOrd [playerOrd] [("A", teamOrd)] [] [("QB", 1)] "me").1 = 220 ∧
      (adjusted_salary_needFirst playerOrd [playerOrd] [("A", teamOrd)] []
          [("QB", 1)] "me").1 = 253 ∧
      (adjusted_salary playerOrd [playerOrd] [("A", teamOrd)] [] [("QB", 1)] "me").1 ≠
        (adjusted_salary_needFirst playerOrd [playerOrd] [("A", teamOrd)] []
          [("QB", 1)] "me").1 := by
  have hup : strUpper "QB" = "QB" := by decide
  have hens : ensureMyTeam [("A", teamOrd)] "me" = [("A", teamOrd), ("me", mkTeam "me")] := by
    decide
  have hget : alGet [("A", teamOrd), ("me", mkTeam "me")] "me" = some (mkTeam "me") := by
    decide
  have hlevel : _need_level (mkTeam "me") "QB" _requirements = "high" := by decide
  have hrv : remainingValue [playerOrd] [] = 200 := by decide
  have hinf1 : _inflation_factor [("A", teamOrd)] [playerOrd] [] = 1 := by
    have hsp : ((([("A", teamOrd)] : List (String × Team)).map
        fun kv => kv.2.remaining).sum : ℤ) = 200 := by decide
    simp only [_inflation_factor, hrv, hsp]
    rw [if_neg (by simp : ¬((200 : ℤ) ≤ 0 ∨ ([("A", teamOrd)] : List (String × Team)) = []))]
    unfold _clamp INFLATION_MIN INFLATION_MAX
    norm_num
  have hinf2 : _inflation_factor [("A", teamOrd), ("me", mkTeam "me")] [playerOrd] [] =
      INFLATION_MAX := by
    have hsp : ((([("A", teamOrd), ("me", mkTeam "me")] : List (String × Team)).map
        fun kv => kv.2.remaining).sum : ℤ) = 400 := by decide
    simp only [_inflation_factor, hrv, hsp]
    rw [if_neg (by simp :
      ¬((200 : ℤ) ≤ 0 ∨ ([("A", teamOrd), ("me", mkTeam "me")] : List (String × Team)) = []))]
    unfold _clamp INFLATION_MIN INFLATION_MAX
    norm_num
  have hsup : _supply_factor [playerOrd] [] "QB" "high" [("QB", 1)] = 1 := by
    have hg : alGet [(("QB" : String), (1 : ℤ))] (strUpper "QB") = some 1 := by decide
    have hrc : remainingCount [playerOrd] [] (strUpper "QB") = 1 := by decide
    simp only [_supply_factor, hg, hrc]
    rw [if_neg (by norm_num : ¬(1 : ℤ) ≤ 0)]
    norm_num [SUPPLY_WEIGHT]
  have hgap : _tier_gap_factor [playerOrd] [] "QB" 200 "P" = 1 := by
    have h1 : ([playerOrd].filter fun p =>
        decide (strUpper p.position = strUpper "QB") && decide (p.name ∉ ([] : List String))) =
        [playerOrd] := by decide
    simp only [_tier_gap_factor, h1]
    rw [if_neg (by decide : ¬([playerOrd] : List Player) = [])]
    have h2 : sortByDesc Player.salary [playerOrd] = [playerOrd] := by decide
    rw [h2]
    have h3 : (([playerOrd].map Player.name).findIdx? fun n => decide (n = "P")) = some 0 := by
      decide
    rw [h3]
    norm_num
  have htier : _tier_scarcity_factor [playerOrd] [] "QB" none "high" = 1 := rfl
  have hsal : playerOrd.salary = 200 := rfl
  have hpos : strUpper playerOrd.position = "QB" := by decide
  have hname : playerOrd.name = "P" := rfl
  have htv : playerOrd.tier = none := rfl
  have hA : (adjusted_salary playerOrd [playerOrd] [("A", teamOrd)] []
      [("QB", 1)] "me").1 = 220 := by
    simp only [adjusted_salary, hsal, hpos, hname, htv, hens, hget, Option.getD_some,
      hlevel, hinf1, hsup, hgap, htier]
    norm_num [NEED_MULT_HIGH, _clamp, CAP_MIN, CAP_MAX, pythonRound]
  have hB : (adjusted_salary_needFirst playerOrd [playerOrd] [("A", teamOrd)] []
      [("QB", 1)] "me").1 = 253 := by
    simp only [adjusted_salary_needFirst, hsal, hpos, hname, htv, hens, hget,
      Option.getD_some, hlevel, hinf2, hsup, hgap, htier]
    norm_num [NEED_MULT_HIGH, INFLATION_MAX, _clamp, CAP_MIN, CAP_MAX, pythonRound]
  exact ⟨hA, hB, by rw [hA, hB]; decide⟩

/-- C4 amended: the five factors are order-insensitive provided the my-team
key already exists in the teams dict (then no auto-creation happens and every
factor is a pure function of the same state); when it is absent, computing
the need factor first inserts the my-team and changes the inflation input,
so the order matters (see the counterexample). -/
theorem factor_order_insensitive_of_my_team_present (row : Player) (df : List Player)
    (teams : List (String × Team)) (drafted : List String)
    (counts : List (String × ℤ)) (my : String)
    (h : (alGet teams my).isSome = true) :
    adjusted_salary row df teams drafted counts my =
      adjusted_salary_needFirst row df teams drafted counts my := by
  simp only [adjusted_salary, adjusted_salary_needFirst, ensureMyTeam, h, if_true]

/-- Witness for the amended C4 with the my-team present. -/
theorem factor_order_insensitive_witness :
    adjusted_salary playerOrd [playerOrd] [("me", mkTeam "me")] [] [("QB", 1)] "me" =
      adjusted_salary_needFirst playerOrd [playerOrd] [("me", mkTeam "me")] []
        [("QB", 1)] "me" :=
  factor_order_insensitive_of_my_team_present playerOrd [playerOrd]
    [("me", mkTeam "me")] [] [("QB", 1)] "me" (by decide)

-- --- Fuzzy matching (fuzzy_matches + difflib.SequenceMatcher) ---

/-- Python `str.lower()` on character data (ASCII-faithful). -/
def toLowerL (l : List Char) : List Char := l.map Char.toLower

/-- Python `str.strip()`: drop unicode whitespace from both ends. -/
def stripL (l : List Char) : List Char :=
  ((l.dropWhile Char.isWhitespace).reverse.dropWhile Char.isWhitespace).reverse

/-- Python `str.strip()` on `String`. -/
def strTrim (s : String) : String := String.mk (stripL s.data)

def isPrefixL : List Char → List Char → Bool
  | [], _ => true
  | _ :: _, [] => false
  | a :: as, b :: bs => a == b && isPrefixL as bs

/-- Python `cl.find(q)` (and `q in cl` via `isSome`): index of the first
occurrence of `q` as a contiguous substring of `cl`. -/
def subFind (q : List Char) : List Char → Option ℕ
  | [] => if isPrefixL q [] then some 0 else none
  | c :: rest =>
      if isPrefixL q (c :: rest) then some 0 else (subFind q rest).map (· + 1)

-- difflib.SequenceMatcher(None, a, b) embedding.  With junk=None the junk
-- set `bjunk` is empty, so the two junk-extension loops of
-- find_longest_match never execute and are omitted; the `bpopular`
-- (autojunk) mechanism is modelled in `b2j`.

/-- Ascending positions of `c` in `b` (the `b2j` chain before autojunk). -/
def indicesOf (b : List Char) (c : Char) : List ℕ :=
  ((b.enum.filter fun p => p.2 == c).map Prod.fst)

/-- difflib autojunk: for `len(b) >= 200`, elements occurring more than
`len(b) // 100 + 1` times are "popular" and removed from `b2j`. -/
def isPopular (b : List Char) (c : Char) : Bool :=
  decide (200 ≤ b.length) && decide (b.length / 100 + 1 < b.count c)

def b2j (b : List Char) (c : Char) : List ℕ :=
  if isPopular b c then [] else indicesOf b c

/-- Inner loop of find_longest_match over `b2j[a[i]]` (ascending, so the
Python `continue`/`break` window test is a filter); builds the new `j2len`
and updates the best block, preferring strictly longer blocks so earliest
`i` then earliest `j` win ties. -/
def flmDP (j2lenOld : List (ℕ × ℕ)) (i blo bhi : ℕ) :
    List ℕ → List (ℕ × ℕ) → ℕ × ℕ × ℕ → List (ℕ × ℕ) × (ℕ × ℕ × ℕ)
  | [], acc, best => (acc, best)
  | j :: js, acc, best =>
      if blo ≤ j ∧ j < bhi then
        let k := (if j = 0 then 0 else (alGet j2lenOld (j - 1)).getD 0) + 1
        let best' := if best.2.2 < k then (i + 1 - k, j + 1 - k, k) else best
        flmDP j2lenOld i blo bhi js (acc ++ [(j, k)]) best'
      else flmDP j2lenOld i blo bhi js acc best

/-- Outer loop of find_longest_match over rows `i ∈ [alo, ahi)`. -/
def flmRows (a b : List Char) (blo bhi : ℕ) :
    ℕ → ℕ → List (ℕ × ℕ) → ℕ × ℕ × ℕ → ℕ × ℕ × ℕ
  | 0, _, _, best => best
  | cnt + 1, i, j2len, best =>
      let r := flmDP j2len i blo bhi (b2j b (a.getD i 'a')) [] best
      flmRows a b blo bhi cnt (i + 1) r.1 r.2

/-- First non-junk extension loop (extend the block downwards while the
previous characters agree); fuel `besti` suffices since `besti` decreases. -/
def flmExtLow (a b : List Char) (alo blo : ℕ) :
    ℕ → ℕ × ℕ × ℕ → ℕ × ℕ × ℕ
  | 0, best => best
  | fuel + 1, (besti, bestj, bestsize) =>
      if alo < besti ∧ blo < bestj ∧ a.getD (besti - 1) 'a' = b.getD (bestj - 1) 'b' then
        flmExtLow a b alo blo fuel (besti - 1, bestj - 1, bestsize + 1)
      else (besti, bestj, bestsize)

/-- Second non-junk extension loop (extend upwards); fuel `ahi` suffices. -/
def flmExtHigh (a b : List Char) (ahi bhi : ℕ) :
    ℕ → ℕ × ℕ × ℕ → ℕ × ℕ × ℕ
  | 0, best => best
  | fuel + 1, (besti, bestj, bestsize) =>
      if besti + bestsize < ahi ∧ bestj + bestsize < bhi ∧
          a.getD (besti + bestsize) 'a' = b.getD (bestj + bestsize) 'b' then
        flmExtHigh a b ahi bhi fuel (besti, bestj, bestsize + 1)
      else (besti, bestj, bestsize)

/-- `SequenceMatcher.find_longest_match(alo, ahi, blo, bhi)`. -/
def findLongestMatch (a b : List Char) (alo ahi blo bhi : ℕ) : ℕ × ℕ × ℕ :=
  let r0 := flmRows a b blo bhi (ahi - alo) alo [] (alo, blo, 0)
  let r1 := flmExtLow a b alo blo r0.1 r0
  flmExtHigh a b ahi bhi ahi r1

/-- Total size of all matching blocks (`get_matching_blocks` recursion,
summing only block sizes, which is all `ratio` needs); fuel bounds the
recursion depth. -/
def matchingTotal (a b : List Char) : ℕ → ℕ → ℕ → ℕ → ℕ → ℕ
  | 0, _, _, _, _ => 0
  | fuel + 1, alo, ahi, blo, bhi =>
      let r := findLongestMatch a b alo ahi blo bhi
      if r.2.2 = 0 then 0
      else
        matchingTotal a b fuel alo r.1 blo r.2.1 + r.2.2 +
          matchingTotal a b fuel (r.1 + r.2.2) ahi (r.2.1 + r.2.2) bhi

/-- Matched element count M of `SequenceMatcher(None, q, cl)`. -/
def difflibMatches (q cl : List Char) : ℕ :=
  matchingTotal q cl (q.length + cl.length + 1) 0 q.length 0 cl.length

/-- `int(SequenceMatcher(None, q, cl).ratio() * 100)`: with
`ratio = 2M / T` (and 1.0 for `T = 0`), the truncation is the ℕ-division
`200*M / T`. -/
def scoreSimilarity (q cl : List Char) : ℕ :=
  let T := q.length + cl.length
  if T = 0 then 100 else 200 * difflibMatches q cl / T

/-- The exact rational `SequenceMatcher.ratio()`. -/
def ratioExact (q cl : List Char) : ℚ :=
  let T := q.length + cl.length
  if T = 0 then 1 else 2 * (difflibMatches q cl : ℚ) / (T : ℚ)

/-- Per-choice score of `fuzzy_matches` (query and choice already lowered):
`200 - first-occurrence-index` for substring hits, else the similarity
percentage. -/
def scoreChoice (q cl : List Char) : ℤ :=
  match subFind q cl with
  | some idx => 200 - (idx : ℤ)
  | none => (scoreSimilarity q cl : ℤ)

/-- Source `fuzzy_matches` (defaults in the source: limit 15, min_ratio 40).
`scored.sort(key=..., reverse=True)` is Python's stable descending sort,
modelled by the stable descending insertion sort `sortByDesc`. -/
def fuzzy_matches (query : List Char) (choices : List (List Char)) (limit : ℕ)
    (min_ratio : ℤ) : List (List Char) :=
  let q := toLowerL (stripL query)
  if q = [] then choices.take limit
  else
    let scored := choices.filterMap fun ch =>
      let cl := toLowerL ch
      let score := scoreChoice q cl
      if min_ratio ≤ score then some (score, ch) else none
    let sorted := sortByDesc Prod.fst scored
    (sorted.take limit).map Prod.snd

-- --- Team registry (prompt_team) ---

/-- One PTOut field per observable of a `prompt_team` loop iteration:
the resolved team (`none` = re-prompt), the teams dict afterwards, and
whether a selection menu was opened. -/
structure PTOut where
  result : Option Team
  teams : List (String × Team)
  menuOpened : Bool
deriving DecidableEq

/-- The f-string label `Create new team '<raw>'`. -/
def createLabel (raw : String) : String :=
  "Create new team " ++ String.singleton (Char.ofNat 39) ++ raw ++
    String.singleton (Char.ofNat 39)

/-- One iteration of source `prompt_team`, with the typed line `input` and a
`choose` oracle standing for `curses_select`. -/
def prompt_team_once (teams : List (String × Team)) (input : String)
    (choose : List String → Option String) : PTOut :=
  let raw := strTrim input
  if raw = "" then ⟨none, teams, false⟩
  else
    match alGet teams raw with
    | some t => ⟨some t, teams, false⟩
    | none =>
        let existing := alKeys teams
        let suggestions :=
          (fuzzy_matches raw.data (existing.map String.data) 10 40).map String.mk
        let create_label := createLabel raw
        let options :=
          if raw ∉ existing then create_label :: suggestions else suggestions
        if options = [] then
          let t := mkTeam raw
          ⟨some t, alSet teams raw t, false⟩
        else
          match choose options with
          | none => ⟨none, teams, true⟩
          | some ch =>
              if ch = create_label then
                let t := mkTeam raw
                ⟨some t, alSet teams raw t, true⟩
              else ⟨alGet teams ch, teams, true⟩

/-- C8: resolving a query that exactly (case-sensitively) matches an
existing team name returns that team immediately, opens no menu, creates no
team and leaves the teams dict unchanged; a second resolve with the same
name returns the same team again.  (The query is assumed already stripped
and non-blank: `prompt_team` strips the typed line, and every reachable
team name is a stripped non-empty string.) -/
theorem prompt_team_exact_hit (teams : List (String × Team)) (input : String)
    (choose choose2 : List String → Option String) (t : Team)
    (h1 : strTrim input = input) (h2 : input ≠ "")
    (h3 : alGet teams input = some t) :
    prompt_team_once teams input choose = ⟨some t, teams, false⟩ ∧
      prompt_team_once (prompt_team_once teams input choose).teams input choose2 =
        ⟨some t, teams, false⟩ := by
  have hmain : prompt_team_once teams input choose = ⟨some t, teams, false⟩ := by
    unfold prompt_team_once
    rw [h1, if_neg h2, h3]
  exact ⟨hmain, by rw [hmain]; unfold prompt_team_once; rw [h1, if_neg h2, h3]⟩

/-- Witness for C8 at a concrete registry. -/
theorem prompt_team_exact_hit_witness :
    prompt_team_once [("me", mkTeam "me")] "me" (fun _ => none) =
        ⟨some (mkTeam "me"), [("me", mkTeam "me")], false⟩ ∧
      prompt_team_once (prompt_team_once [("me", mkTeam "me")] "me"
          (fun _ => none)).teams "me" (fun _ => some "x") =
        ⟨some (mkTeam "me"), [("me", mkTeam "me")], false⟩ :=
  prompt_team_exact_hit [("me", mkTeam "me")] "me" (fun _ => none)
    (fun _ => some "x") (mkTeam "me") (by decide) (by decide) (by decide)

-- --- Draft state machine (main loop commit and undo) ---

/-- A history entry `(player_name, position, price, team_name)`; commits are
described by the same data. -/
structure HEntry where
  player : String
  pos : String
  price : ℤ
  team : String
deriving DecidableEq

/-- The mutable session state of `main`: the teams dict, the drafted set and
the undo history. -/
structure DraftState where
  teams : List (String × Team)
  drafted : List String
  history : List HEntry
deriving DecidableEq

def initialDraftState : DraftState := ⟨[], [], []⟩

/-- One completed assignment: team resolution (`prompt_team` creates the
team when absent) followed by the commit block of `main`:
`team.spent += price`, `team.roster[pos] = get(pos,0)+1`, `drafted.add`,
`history.append`. -/
def commit (s : DraftState) (c : HEntry) : DraftState :=
  let teams1 :=
    match alGet s.teams c.team with
    | some _ => s.teams
    | none => alSet s.teams c.team (mkTeam c.team)
  let t := (alGet teams1 c.team).getD (mkTeam c.team)
  let t' :=
    { t with
      spent := t.spent + c.price
      roster := alSet t.roster c.pos ((alGet t.roster c.pos).getD 0 + 1) }
  { teams := alSet teams1 c.team t'
    drafted := if c.player ∈ s.drafted then s.drafted else s.drafted ++ [c.player]
    history := s.history ++ [c] }

/-- The `__UNDO__` block of `main`: pop the last entry and reverse it:
remove the player, `spent = max(0, spent - price)`, decrement the roster
count at that position deleting the key at zero. -/
def undo (s : DraftState) : DraftState :=
  match s.history.getLast? with
  | none => s
  | some e =>
      let drafted' :=
        if e.player ∈ s.drafted then s.drafted.erase e.player else s.drafted
      let teams' :=
        match alGet s.teams e.team with
        | none => s.teams
        | some t =>
            let t1 := { t with spent := max 0 (t.spent - e.price) }
            let t2 :=
              match alGet t1.roster e.pos with
              | none => t1
              | some cnt =>
                  let nc := max 0 (cnt - 1)
                  if nc = 0 then { t1 with roster := alErase t1.roster e.pos }
                  else { t1 with roster := alSet t1.roster e.pos nc }
            alSet s.teams e.team t2
      { teams := teams', drafted := drafted', history := s.history.dropLast }

def applyCommits (s : DraftState) (cs : List HEntry) : DraftState :=
  cs.foldl commit s

/-- Reachability side conditions of the main loop: each committed player is
offered only if undrafted (`prompt_player` filters the drafted set) and
`prompt_price` only returns non-negative integers. -/
def commitsValid : DraftState → List HEntry → Bool
  | _, [] => true
  | s, c :: cs =>
      (decide (c.player ∉ s.drafted) && decide (0 ≤ c.price)) &&
        commitsValid (commit s c) cs

inductive DraftOp where
  | commitOp (c : HEntry)
  | undoOp
deriving DecidableEq

def applyOp (s : DraftState) : DraftOp → DraftState
  | .commitOp c => commit s c
  | .undoOp => undo s

def applyOps (s : DraftState) (ops : List DraftOp) : DraftState :=
  ops.foldl applyOp s

def opsValid : DraftState → List DraftOp → Bool
  | _, [] => true
  | s, op :: rest =>
      (match op with
       | .commitOp c => decide (c.player ∉ s.drafted) && decide (0 ≤ c.price)
       | .undoOp => true) &&
        opsValid (applyOp s op) rest

/-- Sum of the prices of the history entries of team `n`. -/
def sumPrices (h : List HEntry) (n : String) : ℤ :=
  ((h.filter fun e => decide (e.team = n)).map HEntry.price).sum

/-- Number of history entries of team `n` at position `p`. -/
def posCount (h : List HEntry) (n p : String) : ℤ :=
  ((h.filter fun e => decide (e.team = n) && decide (e.pos = p)).length : ℤ)

def histPlayers (h : List HEntry) : List String := h.map HEntry.player

theorem sumPrices_append (h : List HEntry) (e : HEntry) (n : String) :
    sumPrices (h ++ [e]) n = sumPrices h n + (if e.team = n then e.price else 0) := by
  unfold sumPrices
  rw [List.filter_append]
  by_cases he : e.team = n <;> simp [he]

theorem posCount_append (h : List HEntry) (e : HEntry) (n p : String) :
    posCount (h ++ [e]) n p =
      posCount h n p + (if e.team = n ∧ e.pos = p then 1 else 0) := by
  unfold posCount
  rw [List.filter_append]
  by_cases h1 : e.team = n
  · by_cases h2 : e.pos = p <;> simp [h1, h2]
  · simp [h1]

theorem histPlayers_append (h : List HEntry) (e : HEntry) :
    histPlayers (h ++ [e]) = histPlayers h ++ [e.player] := by
  simp [histPlayers]

theorem posCount_nonneg (h : List HEntry) (n p : String) : 0 ≤ posCount h n p := by
  unfold posCount
  positivity

theorem sumPrices_nonneg (h : List HEntry) (n : String)
    (hp : ∀ e ∈ h, 0 ≤ e.price) : 0 ≤ sumPrices h n := by
  unfold sumPrices
  apply List.sum_nonneg
  intro x hx
  rw [List.mem_map] at hx
  obtain ⟨e, he, rfl⟩ := hx
  exact hp e (List.mem_of_mem_filter he)

theorem sumPrices_of_absent (h : List HEntry) (n : String)
    (hn : ∀ e ∈ h, e.team ≠ n) : sumPrices h n = 0 := by
  unfold sumPrices
  rw [List.filter_eq_nil_iff.mpr (by intro e he; simp [hn e he])]
  rfl

theorem posCount_of_absent (h : List HEntry) (n p : String)
    (hn : ∀ e ∈ h, e.team ≠ n) : posCount h n p = 0 := by
  unfold posCount
  rw [List.filter_eq_nil_iff.mpr (by intro e he; simp [hn e he])]
  rfl

/-- State invariant of the commit/undo machine: every team's spent and
per-position roster counts agree with its history entries (zero counts
absent), team identity fields are canonical, the drafted set is exactly the
set of players in the history, and bookkeeping side conditions. -/
structure DraftInv (s : DraftState) : Prop where
  teamsOk : ∀ n t, alGet s.teams n = some t →
    t.name = n ∧ t.budget = DEFAULT_BUDGET ∧ t.spent = sumPrices s.history n ∧
      (∀ p, alGet t.roster p =
        (if posCount s.history n p = 0 then none
         else some (posCount s.history n p))) ∧
      (alKeys t.roster).Nodup
  draftedIff : ∀ pl, pl ∈ s.drafted ↔ pl ∈ histPlayers s.history
  playersNodup : (histPlayers s.history).Nodup
  draftedNodup : s.drafted.Nodup
  pricesNonneg : ∀ e ∈ s.history, 0 ≤ e.price
  teamsHaveKeys : ∀ e ∈ s.history, (alGet s.teams e.team).isSome = true

theorem initial_draftInv : DraftInv initialDraftState := by
  constructor <;> simp [initialDraftState, alGet, histPlayers]

theorem commit_inv (s : DraftState) (c : HEntry) (hs : DraftInv s)
    (h1 : c.player ∉ s.drafted) (h2 : 0 ≤ c.price) : DraftInv (commit s c) := by
  have hplayer_not_hist : c.player ∉ histPlayers s.history := fun hc =>
    h1 ((hs.draftedIff c.player).mpr hc)
  cases hteam : alGet s.teams c.team with
  | some t0 =>
      obtain ⟨hname, hbudget, hspent, hroster, hknd⟩ := hs.teamsOk c.team t0 hteam
      have hcmt : commit s c = ⟨alSet s.teams c.team
          { t0 with
            spent := t0.spent + c.price
            roster := alSet t0.roster c.pos ((alGet t0.roster c.pos).getD 0 + 1) },
          s.drafted ++ [c.player], s.history ++ [c]⟩ := by
        simp only [commit, hteam, Option.getD_some, if_neg h1]
      have hc0 : ((alGet t0.roster c.pos).getD 0) = posCount s.history c.team c.pos := by
        rw [hroster c.pos]
        by_cases hz : posCount s.history c.team c.pos = 0 <;> simp [hz]
      rw [hcmt]
      refine ⟨?_, ?_, ?_, ?_, ?_, ?_⟩ <;> dsimp only
      · intro n t hlook
        rw [alGet_alSet] at hlook
        by_cases hn : n = c.team
        · rw [if_pos hn] at hlook
          subst hn
          injection hlook with hlook
          subst hlook
          refine ⟨by simpa using hname, by simpa using hbudget, ?_, ?_, ?_⟩
          · show t0.spent + c.price = _
            rw [sumPrices_append, if_pos rfl, hspent]
          · intro p
            show alGet (alSet t0.roster c.pos ((alGet t0.roster c.pos).getD 0 + 1)) p = _
            rw [posCount_append]
            by_cases hp : p = c.pos
            · subst hp
              rw [alGet_alSet_self, hc0,
                if_pos (show c.team = c.team ∧ c.pos = c.pos from ⟨rfl, rfl⟩)]
              have hpn := posCount_nonneg s.history c.team c.pos
              rw [if_neg (by omega)]
            · rw [alGet_alSet_ne _ _ _ _ hp,
                if_neg (show ¬(c.team = c.team ∧ c.pos = p) from
                  fun hcon => hp hcon.2.symm), add_zero]
              exact hroster p
          · exact alKeys_nodup_alSet _ _ _ hknd
        · rw [if_neg hn] at hlook
          obtain ⟨hn1, hn2, hn3, hn4, hn5⟩ := hs.teamsOk n t hlook
          refine ⟨hn1, hn2, ?_, ?_, hn5⟩
          · rw [sumPrices_append,
              if_neg (show ¬c.team = n from fun hcc => hn hcc.symm), add_zero]
            exact hn3
          · intro p
            rw [posCount_append,
              if_neg (show ¬(c.team = n ∧ c.pos = p) from fun hcc => hn hcc.1.symm),
              add_zero]
            exact hn4 p
      · intro pl
        simp only [List.mem_append, List.mem_singleton, histPlayers_append,
          hs.draftedIff pl]
      · rw [histPlayers_append, List.nodup_append]
        refine ⟨hs.playersNodup, List.nodup_singleton _, ?_⟩
        intro a ha hb
        rw [List.mem_singleton] at hb
        subst hb
        exact hplayer_not_hist ha
      · rw [List.nodup_append]
        refine ⟨hs.draftedNodup, List.nodup_singleton _, ?_⟩
        intro a ha hb
        rw [List.mem_singleton] at hb
        subst hb
        exact h1 ha
      · intro e he
        rcases List.mem_append.mp he with he | he
        · exact hs.pricesNonneg e he
        · rw [List.mem_singleton] at he
          subst he
          exact h2
      · intro e he
        rcases List.mem_append.mp he with he | he
        · exact alGet_isSome_alSet _ _ _ _ (hs.teamsHaveKeys e he)
        · rw [List.mem_singleton] at he
          subst he
          rw [alGet_alSet_self]
          rfl
  | none =>
      have hnoent : ∀ e ∈ s.history, e.team ≠ c.team := by
        intro e he hcon
        have hk := hs.teamsHaveKeys e he
        rw [hcon, hteam] at hk
        simp at hk
      have hcmt : commit s c = ⟨alSet s.teams c.team
          { name := c.team, budget := DEFAULT_BUDGET, spent := 0 + c.price,
            roster := [(c.pos, 0 + 1)] },
          s.drafted ++ [c.player], s.history ++ [c]⟩ := by
        simp only [commit, hteam, alGet_alSet_self, Option.getD_some, if_neg h1,
          mkTeam, alSet_alSet]
        rfl
      rw [hcmt]
      refine ⟨?_, ?_, ?_, ?_, ?_, ?_⟩ <;> dsimp only
      · intro n t hlook
        rw [alGet_alSet] at hlook
        by_cases hn : n = c.team
        · rw [if_pos hn] at hlook
          subst hn
          injection hlook with hlook
          subst hlook
          refine ⟨rfl, rfl, ?_, ?_, by simp [alKeys]⟩
          · show 0 + c.price = _
            rw [sumPrices_append, if_pos rfl, sumPrices_of_absent _ _ hnoent]
          · intro p
            rw [posCount_append, posCount_of_absent _ _ _ hnoent]
            by_cases hp : p = c.pos
            · subst hp
              rw [if_pos (show c.team = c.team ∧ c.pos = c.pos from ⟨rfl, rfl⟩)]
              show alGet [(c.pos, 0 + 1)] c.pos = _
              rw [alGet_cons]
              norm_num
            · rw [if_neg (show ¬(c.team = c.team ∧ c.pos = p) from
                fun hcon => hp hcon.2.symm)]
              show alGet [(c.pos, 0 + 1)] p = _
              rw [alGet_cons, if_neg hp]
              norm_num
              rfl
        · rw [if_neg hn] at hlook
          obtain ⟨hn1, hn2, hn3, hn4, hn5⟩ := hs.teamsOk n t hlook
          refine ⟨hn1, hn2, ?_, ?_, hn5⟩
          · rw [sumPrices_append,
              if_neg (show ¬c.team = n from fun hcc => hn hcc.symm), add_zero]
            exact hn3
          · intro p
            rw [posCount_append,
              if_neg (show ¬(c.team = n ∧ c.pos = p) from fun hcc => hn hcc.1.symm),
              add_zero]
            exact hn4 p
      · intro pl
        simp only [List.mem_append, List.mem_singleton, histPlayers_append,
          hs.draftedIff pl]
      · rw [histPlayers_append, List.nodup_append]
        refine ⟨hs.playersNodup, List.nodup_singleton _, ?_⟩
        intro a ha hb
        rw [List.mem_singleton] at hb
        subst hb
        exact hplayer_not_hist ha
      · rw [List.nodup_append]
        refine ⟨hs.draftedNodup, List.nodup_singleton _, ?_⟩
        intro a ha hb
        rw [List.mem_singleton] at hb
        subst hb
        exact h1 ha
      · intro e he
        rcases List.mem_append.mp he with he | he
        · exact hs.pricesNonneg e he
        · rw [List.mem_singleton] at he
          subst he
          exact h2
      · intro e he
        rcases List.mem_append.mp he with he | he
        · exact alGet_isSome_alSet _ _ _ _ (hs.teamsHaveKeys e he)
        · rw [List.mem_singleton] at he
          subst he
          rw [alGet_alSet_self]
          rfl

theorem undo_inv (s : DraftState) (hs : DraftInv s) : DraftInv (undo s) := by
  rcases List.eq_nil_or_concat s.history with hnil | ⟨h0, e, hcat⟩
  · have hu : undo s = s := by simp [undo, hnil]
    rw [hu]
    exact hs
  · rw [List.concat_eq_append] at hcat
    have hlast : s.history.getLast? = some e := by rw [hcat, List.getLast?_concat]
    have hdrop : s.history.dropLast = h0 := by rw [hcat, List.dropLast_concat]
    have hmem : e ∈ s.history := by rw [hcat]; simp
    have hkey := hs.teamsHaveKeys e hmem
    obtain ⟨t, hteam⟩ : ∃ t, alGet s.teams e.team = some t := by
      cases hT : alGet s.teams e.team with
      | none => rw [hT] at hkey; simp at hkey
      | some t => exact ⟨t, rfl⟩
    obtain ⟨hname, hbudget, hspent, hroster, hknd⟩ := hs.teamsOk e.team t hteam
    have hhp : histPlayers s.history = histPlayers h0 ++ [e.player] := by
      rw [hcat, histPlayers_append]
    have hpl_in : e.player ∈ s.drafted := by
      rw [hs.draftedIff, hhp]
      simp
    have hpcpos : posCount s.history e.team e.pos = posCount h0 e.team e.pos + 1 := by
      rw [hcat, posCount_append, if_pos ⟨rfl, rfl⟩]
    have hsp : sumPrices s.history e.team = sumPrices h0 e.team + e.price := by
      rw [hcat, sumPrices_append, if_pos rfl]
    have hpc0 := posCount_nonneg h0 e.team e.pos
    have hlookros : alGet t.roster e.pos = some (posCount h0 e.team e.pos + 1) := by
      rw [hroster e.pos, hpcpos, if_neg (by omega)]
    have hprices0 : ∀ e' ∈ h0, 0 ≤ e'.price := fun e' he' =>
      hs.pricesNonneg e' (by rw [hcat]; exact List.mem_append_left _ he')
    have hs0 : 0 ≤ sumPrices h0 e.team := sumPrices_nonneg h0 e.team hprices0
    have hspent2 : max 0 (t.spent - e.price) = sumPrices h0 e.team := by
      rw [hspent, hsp]
      omega
    have main : ∀ T2 : Team, T2.name = e.team → T2.budget = DEFAULT_BUDGET →
        T2.spent = sumPrices h0 e.team →
        (∀ p, alGet T2.roster p =
          (if posCount h0 e.team p = 0 then none else some (posCount h0 e.team p))) →
        (alKeys T2.roster).Nodup →
        DraftInv ⟨alSet s.teams e.team T2, s.drafted.erase e.player, h0⟩ := by
      intro T2 hT1 hT2 hT3 hT4 hT5
      have hnodup := hs.playersNodup
      rw [hhp, List.nodup_append] at hnodup
      refine ⟨?_, ?_, ?_, ?_, ?_, ?_⟩ <;> dsimp only
      · intro n t' hlook
        rw [alGet_alSet] at hlook
        by_cases hn : n = e.team
        · rw [if_pos hn] at hlook
          subst hn
          injection hlook with hlook
          subst hlook
          exact ⟨hT1, hT2, hT3, hT4, hT5⟩
        · rw [if_neg hn] at hlook
          obtain ⟨hn1, hn2, hn3, hn4, hn5⟩ := hs.teamsOk n t' hlook
          rw [hcat] at hn3 hn4
          rw [sumPrices_append,
            if_neg (show ¬e.team = n from fun hcc => hn hcc.symm), add_zero] at hn3
          refine ⟨hn1, hn2, hn3, ?_, hn5⟩
          intro p
          have := hn4 p
          rw [posCount_append,
            if_neg (show ¬(e.team = n ∧ e.pos = p) from fun hcc => hn hcc.1.symm),
            add_zero] at this
          exact this
      · intro pl
        rw [List.Nodup.mem_erase_iff hs.draftedNodup, hs.draftedIff, hhp,
          List.mem_append, List.mem_singleton]
        constructor
        · rintro ⟨hne, h | h⟩
          · exact h
          · exact absurd h hne
        · intro h
          refine ⟨?_, Or.inl h⟩
          intro hcz
          exact hnodup.2.2 (hcz ▸ h) (List.mem_singleton_self _)
      · exact hnodup.1
      · exact hs.draftedNodup.erase _
      · intro e' he'
        exact hprices0 e' he'
      · intro e' he'
        apply alGet_isSome_alSet
        exact hs.teamsHaveKeys e' (by rw [hcat]; exact List.mem_append_left _ he')
    by_cases hz : posCount h0 e.team e.pos = 0
    · have hundo : undo s = ⟨alSet s.teams e.team
          { t with spent := max 0 (t.spent - e.price), roster := alErase t.roster e.pos },
          s.drafted.erase e.player, h0⟩ := by
        simp only [undo, hlast, hteam, if_pos hpl_in, hlookros, hdrop, hz]
        norm_num
      rw [hundo]
      refine main _ (by simpa using hname) (by simpa using hbudget) (by simpa using hspent2)
        ?_ (alKeys_nodup_alErase _ _ hknd)
      intro p
      show alGet (alErase t.roster e.pos) p = _
      by_cases hp : p = e.pos
      · subst hp
        rw [alGet_alErase_self _ _ hknd, if_pos hz]
      · rw [alGet_alErase_ne _ _ _ hp, hroster p, hcat, posCount_append,
          if_neg (show ¬(e.team = e.team ∧ e.pos = p) from fun hcc => hp hcc.2.symm),
          add_zero]
    · have hundo : undo s = ⟨alSet s.teams e.team
          { t with spent := max 0 (t.spent - e.price),
                   roster := alSet t.roster e.pos (posCount h0 e.team e.pos) },
          s.drafted.erase e.player, h0⟩ := by
        simp only [undo, hlast, hteam, if_pos hpl_in, hlookros, hdrop]
        have harith : max 0 (posCount h0 e.team e.pos + 1 - 1) = posCount h0 e.team e.pos := by
          omega
        rw [harith, if_neg hz]
      rw [hundo]
      refine main _ (by simpa using hname) (by simpa using hbudget) (by simpa using hspent2)
        ?_ (alKeys_nodup_alSet _ _ _ hknd)
      intro p
      show alGet (alSet t.roster e.pos (posCount h0 e.team e.pos)) p = _
      by_cases hp : p = e.pos
      · subst hp
        rw [alGet_alSet_self, if_neg hz]
      · rw [alGet_alSet_ne _ _ _ _ hp, hroster p, hcat, posCount_append,
          if_neg (show ¬(e.team = e.team ∧ e.pos = p) from fun hcc => hp hcc.2.symm),
          add_zero]

theorem opsValid_inv (ops : List DraftOp) : ∀ s, DraftInv s →
    opsValid s ops = true → DraftInv (applyOps s ops) := by
  induction ops with
  | nil => intro s hs _; exact hs
  | cons op rest ih =>
      intro s hs hv
      simp only [opsValid, Bool.and_eq_true] at hv
      obtain ⟨hok, hrest⟩ := hv
      show DraftInv (applyOps (applyOp s op) rest)
      refine ih (applyOp s op) ?_ hrest
      cases op with
      | commitOp c =>
          simp only [Bool.and_eq_true, decide_eq_true_eq] at hok
          exact commit_inv s c hs hok.1 hok.2
      | undoOp => exact undo_inv s hs

theorem commits_inv (cs : List HEntry) : ∀ s, DraftInv s →
    commitsValid s cs = true → DraftInv (applyCommits s cs) := by
  induction cs with
  | nil => intro s hs _; exact hs
  | cons c rest ih =>
      intro s hs hv
      simp only [commitsValid, Bool.and_eq_true, decide_eq_true_eq] at hv
      obtain ⟨⟨h1, h2⟩, hrest⟩ := hv
      show DraftInv (applyCommits (commit s c) rest)
      exact ih (commit s c) (commit_inv s c hs h1 h2) hrest

theorem commitsValid_append (l1 l2 : List HEntry) : ∀ s,
    commitsValid s (l1 ++ l2) =
      (commitsValid s l1 && commitsValid (applyCommits s l1) l2) := by
  induction l1 with
  | nil => intro s; simp [commitsValid, applyCommits]
  | cons c cs ih =>
      intro s
      show ((decide (c.player ∉ s.drafted) && decide (0 ≤ c.price)) &&
          commitsValid (commit s c) (cs ++ l2)) = _
      rw [ih (commit s c)]
      show ((decide (c.player ∉ s.drafted) && decide (0 ≤ c.price)) &&
          (commitsValid (commit s c) cs && commitsValid (applyCommits (commit s c) cs) l2)) =
        (((decide (c.player ∉ s.drafted) && decide (0 ≤ c.price)) &&
          commitsValid (commit s c) cs) && commitsValid (applyCommits (commit s c) cs) l2)
      simp [Bool.and_assoc]

theorem commit_keys (s : DraftState) (c : HEntry) (n : String)
    (h : (alGet s.teams n).isSome = true) :
    (alGet (commit s c).teams n).isSome = true := by
  cases hteam : alGet s.teams c.team with
  | some t0 =>
      simp only [commit, hteam]
      exact alGet_isSome_alSet _ _ _ _ h
  | none =>
      simp only [commit, hteam]
      exact alGet_isSome_alSet _ _ _ _ (alGet_isSome_alSet _ _ _ _ h)

theorem undo_keys (s : DraftState) (n : String)
    (h : (alGet s.teams n).isSome = true) :
    (alGet (undo s).teams n).isSome = true := by
  cases hlast : s.history.getLast? with
  | none => simpa [undo, hlast] using h
  | some e =>
      cases hteam : alGet s.teams e.team with
      | none =>
          simp only [undo, hlast, hteam]
          exact h
      | some t =>
          simp only [undo, hlast, hteam]
          exact alGet_isSome_alSet _ _ _ _ h

/-- C9: in every state reachable from the empty draft state by valid commit
and undo operations, each team's `spent` is the sum of the prices of its
history entries, its roster maps each position to its entry count there
(zero counts absent from the dict), and the drafted set is exactly the set
of player names in the history. -/
theorem draft_history_invariant (ops : List DraftOp)
    (hv : opsValid initialDraftState ops = true) :
    (∀ n t, alGet (applyOps initialDraftState ops).teams n = some t →
        t.spent = sumPrices (applyOps initialDraftState ops).history n ∧
        ∀ p, alGet t.roster p =
          (if posCount (applyOps initialDraftState ops).history n p = 0 then none
           else some (posCount (applyOps initialDraftState ops).history n p))) ∧
      (∀ pl, pl ∈ (applyOps initialDraftState ops).drafted ↔
        pl ∈ histPlayers (applyOps initialDraftState ops).history) := by
  have hinv := opsValid_inv ops initialDraftState initial_draftInv hv
  refine ⟨fun n t hl => ?_, hinv.draftedIff⟩
  obtain ⟨_, _, h3, h4, _⟩ := hinv.teamsOk n t hl
  exact ⟨h3, h4⟩

def opsW : List DraftOp := [DraftOp.commitOp ⟨"A", "QB", 12, "me"⟩, DraftOp.undoOp]

/-- Witness for C9 after one commit and one undo. -/
theorem draft_history_invariant_witness :
    "A" ∈ (applyOps initialDraftState opsW).drafted ↔
      "A" ∈ histPlayers (applyOps initialDraftState opsW).history :=
  (draft_history_invariant opsW (by decide)).2 "A"

/-- C2: undo is an exact inverse of commit: after any valid non-empty
sequence of commits (written `cs ++ [c]`), one undo restores every team's
spent/roster values (and name/budget) of the state after `cs`, restores the
drafted set exactly, restores the history, and the history length decreases
by exactly 1. -/
theorem undo_exact_inverse (cs : List HEntry) (c : HEntry)
    (hv : commitsValid initialDraftState (cs ++ [c]) = true) :
    (∀ n t, alGet (applyCommits initialDraftState cs).teams n = some t →
        ∃ t', alGet (undo (applyCommits initialDraftState (cs ++ [c]))).teams n = some t' ∧
          t'.spent = t.spent ∧ (∀ p, alGet t'.roster p = alGet t.roster p) ∧
          t'.name = t.name ∧ t'.budget = t.budget) ∧
      (undo (applyCommits initialDraftState (cs ++ [c]))).drafted =
        (applyCommits initialDraftState cs).drafted ∧
      (undo (applyCommits initialDraftState (cs ++ [c]))).history =
        (applyCommits initialDraftState cs).history ∧
      (applyCommits initialDraftState (cs ++ [c])).history.length =
        (undo (applyCommits initialDraftState (cs ++ [c]))).history.length + 1 := by
  rw [commitsValid_append, Bool.and_eq_true] at hv
  obtain ⟨hv1, hv2⟩ := hv
  simp only [commitsValid, Bool.and_eq_true, decide_eq_true_eq, and_true] at hv2
  obtain ⟨hp1, hp2⟩ := hv2
  have hN : applyCommits initialDraftState (cs ++ [c]) =
      commit (applyCommits initialDraftState cs) c := by
    rw [applyCommits, List.foldl_append]
    rfl
  set sP := applyCommits initialDraftState cs with hsP
  have hinvP : DraftInv sP := commits_inv cs initialDraftState initial_draftInv hv1
  have hinvU : DraftInv (undo (commit sP c)) :=
    undo_inv _ (commit_inv _ _ hinvP hp1 hp2)
  have hhistN : (commit sP c).history = sP.history ++ [c] := rfl
  have hlast : (commit sP c).history.getLast? = some c := by
    rw [hhistN, List.getLast?_concat]
  have hu_hist : (undo (commit sP c)).history = sP.history := by
    unfold undo
    rw [hlast]
    dsimp only
    rw [hhistN, List.dropLast_concat]
  have hdrN : (commit sP c).drafted = sP.drafted ++ [c.player] := by
    simp only [commit, if_neg hp1]
  have hu_drafted : (undo (commit sP c)).drafted = sP.drafted := by
    unfold undo
    rw [hlast]
    dsimp only
    rw [hdrN, if_pos (by simp : c.player ∈ sP.drafted ++ [c.player]),
      List.erase_append_right _ hp1, List.erase_cons_head, List.append_nil]
  refine ⟨?_, by rw [hN]; exact hu_drafted, by rw [hN]; exact hu_hist, ?_⟩
  · intro n t hlook
    have hsomeN : (alGet (commit sP c).teams n).isSome = true :=
      commit_keys _ _ _ (by rw [hlook]; rfl)
    have hsomeU : (alGet (undo (commit sP c)).teams n).isSome = true :=
      undo_keys _ _ hsomeN
    obtain ⟨t', ht'⟩ : ∃ t', alGet (undo (commit sP c)).teams n = some t' := by
      cases hU : alGet (undo (commit sP c)).teams n with
      | none => rw [hU] at hsomeU; simp at hsomeU
      | some t' => exact ⟨t', rfl⟩
    obtain ⟨hA1, hA2, hA3, hA4, hA5⟩ := hinvP.teamsOk n t hlook
    obtain ⟨hB1, hB2, hB3, hB4, hB5⟩ := hinvU.teamsOk n t' ht'
    rw [hu_hist] at hB3 hB4
    refine ⟨t', by rw [hN]; exact ht', by rw [hB3, hA3], ?_, by rw [hB1, hA1],
      by rw [hB2, hA2]⟩
    intro p
    rw [hB4 p, hA4 p]
  · rw [hN, hu_hist, hhistN]
    simp

def commitW : HEntry := ⟨"A", "QB", 12, "me"⟩

/-- Witness for C2 with one commit then one undo. -/
theorem undo_exact_inverse_witness :
    (undo (applyCommits initialDraftState ([] ++ [commitW]))).history =
      (applyCommits initialDraftState []).history :=
  (undo_exact_inverse [] commitW (by decide)).2.2.1

-- --- Ordering lemmas for the stable descending sort ---

theorem insertByDesc_mem {α : Type} (key : α → ℤ) (x y : α) (l : List α) :
    y ∈ insertByDesc key x l ↔ y = x ∨ y ∈ l := by
  induction l with
  | nil => simp [insertByDesc]
  | cons z zs ih =>
      by_cases hc : key x ≤ key z
      · simp only [insertByDesc, if_pos hc, List.mem_cons, ih]
        tauto
      · simp only [insertByDesc, if_neg hc, List.mem_cons]

theorem insertByDesc_pairwise {α : Type} (key : α → ℤ) (x : α) (l : List α)
    (h : l.Pairwise fun a b => key b ≤ key a) :
    (insertByDesc key x l).Pairwise fun a b => key b ≤ key a := by
  induction l with
  | nil => simp [insertByDesc]
  | cons z zs ih =>
      rw [List.pairwise_cons] at h
      by_cases hc : key x ≤ key z
      · simp only [insertByDesc, if_pos hc]
        rw [List.pairwise_cons]
        refine ⟨?_, ih h.2⟩
        intro b hb
        rcases (insertByDesc_mem key x b zs).mp hb with rfl | hb
        · exact hc
        · exact h.1 b hb
      · simp only [insertByDesc, if_neg hc]
        rw [List.pairwise_cons]
        constructor
        · intro b hb
          rcases List.mem_cons.mp hb with rfl | hb
          · omega
          · have := h.1 b hb
            omega
        · rw [List.pairwise_cons]
          exact ⟨h.1, h.2⟩

theorem sortByDesc_aux_pairwise {α : Type} (key : α → ℤ) (l : List α) :
    ∀ acc : List α, (acc.Pairwise fun a b => key b ≤ key a) →
      ((l.foldl (fun acc x => insertByDesc key x acc) acc).Pairwise
        fun a b => key b ≤ key a) := by
  induction l with
  | nil => intro acc h; exact h
  | cons x xs ih =>
      intro acc h
      exact ih (insertByDesc key x acc) (insertByDesc_pairwise key x acc h)

theorem sortByDesc_pairwise {α : Type} (key : α → ℤ) (l : List α) :
    (sortByDesc key l).Pairwise fun a b => key b ≤ key a :=
  sortByDesc_aux_pairwise key l [] (by simp)

theorem sortByDesc_aux_mem {α : Type} (key : α → ℤ) (l : List α) :
    ∀ (acc : List α) (y : α),
      (y ∈ l.foldl (fun acc x => insertByDesc key x acc) acc ↔ y ∈ acc ∨ y ∈ l) := by
  induction l with
  | nil => intro acc y; simp
  | cons x xs ih =>
      intro acc y
      rw [List.foldl_cons, ih (insertByDesc key x acc) y, insertByDesc_mem]
      simp only [List.mem_cons]
      tauto

theorem sortByDesc_mem {α : Type} (key : α → ℤ) (l : List α) (y : α) :
    y ∈ sortByDesc key l ↔ y ∈ l := by
  unfold sortByDesc
  rw [sortByDesc_aux_mem]
  simp

-- --- Bounds for find_longest_match and the ratio ---

/-- The block `(i, j, k)` fits inside the ranges `[alo, ahi)` × `[blo, bhi)`. -/
def BlockOk (alo ahi blo bhi : ℕ) (r : ℕ × ℕ × ℕ) : Prop :=
  alo ≤ r.1 ∧ blo ≤ r.2.1 ∧ r.1 + r.2.2 ≤ ahi ∧ r.2.1 + r.2.2 ≤ bhi

/-- Run lengths in `j2len` are bounded by the rows consumed and by the
column offset. -/
def J2Ok (bound blo : ℕ) (l : List (ℕ × ℕ)) : Prop :=
  ∀ p ∈ l, p.2 ≤ bound ∧ p.2 ≤ p.1 + 1 - blo

theorem flmDP_ok (j2lenOld : List (ℕ × ℕ)) (i alo ahi blo bhi : ℕ)
    (hialo : alo ≤ i) (hiahi : i < ahi) (hOld : J2Ok (i - alo) blo j2lenOld) :
    ∀ (js : List ℕ) (acc : List (ℕ × ℕ)) (best : ℕ × ℕ × ℕ),
      J2Ok (i + 1 - alo) blo acc → BlockOk alo ahi blo bhi best →
      J2Ok (i + 1 - alo) blo (flmDP j2lenOld i blo bhi js acc best).1 ∧
        BlockOk alo ahi blo bhi (flmDP j2lenOld i blo bhi js acc best).2 := by
  intro js
  induction js with
  | nil =>
      intro acc best hacc hbest
      exact ⟨hacc, hbest⟩
  | cons j js ih =>
      intro acc best hacc hbest
      by_cases hcond : blo ≤ j ∧ j < bhi
      · simp only [flmDP, if_pos hcond]
        have hk1 : (if j = 0 then 0 else (alGet j2lenOld (j - 1)).getD 0) + 1 ≤
            i + 1 - alo := by
          by_cases hj0 : j = 0
          · rw [if_pos hj0]
            omega
          · rw [if_neg hj0]
            cases hl : alGet j2lenOld (j - 1) with
            | none => simp; omega
            | some v =>
                have := hOld _ (alGet_mem _ _ _ hl)
                simp only [Option.getD_some]
                omega
        have hk2 : (if j = 0 then 0 else (alGet j2lenOld (j - 1)).getD 0) + 1 ≤
            j + 1 - blo := by
          by_cases hj0 : j = 0
          · rw [if_pos hj0]
            omega
          · rw [if_neg hj0]
            cases hl : alGet j2lenOld (j - 1) with
            | none => simp; omega
            | some v =>
                have := hOld _ (alGet_mem _ _ _ hl)
                simp only [Option.getD_some]
                omega
        apply ih
        · intro p hp
          rcases List.mem_append.mp hp with hp | hp
          · exact hacc p hp
          · rw [List.mem_singleton] at hp
            subst hp
            exact ⟨hk1, hk2⟩
        · by_cases hbc : best.2.2 < (if j = 0 then 0 else (alGet j2lenOld (j - 1)).getD 0) + 1
          · rw [if_pos hbc]
            obtain ⟨hb1, hb2, hb3, hb4⟩ := hbest
            refine ⟨?_, ?_, ?_, ?_⟩ <;> dsimp only <;> omega
          · rw [if_neg hbc]
            exact hbest
      · simp only [flmDP, if_neg hcond]
        exact ih acc best hacc hbest

theorem flmRows_ok (a b : List Char) (alo ahi blo bhi : ℕ) :
    ∀ (cnt i : ℕ) (j2len : List (ℕ × ℕ)) (best : ℕ × ℕ × ℕ),
      alo ≤ i → i + cnt ≤ ahi → J2Ok (i - alo) blo j2len →
      BlockOk alo ahi blo bhi best →
      BlockOk alo ahi blo bhi (flmRows a b blo bhi cnt i j2len best) := by
  intro cnt
  induction cnt with
  | zero =>
      intro i j2len best _ _ _ hbest
      exact hbest
  | succ n ih =>
      intro i j2len best hialo hcnt hj2 hbest
      have hiahi : i < ahi := by omega
      have h := flmDP_ok j2len i alo ahi blo bhi hialo hiahi hj2
        (b2j b (a.getD i 'a')) [] best (by intro p hp; simp at hp) hbest
      exact ih (i + 1) _ _ (by omega) (by omega) h.1 h.2

theorem flmExtLow_ok (a b : List Char) (alo ahi blo bhi : ℕ) :
    ∀ (fuel : ℕ) (best : ℕ × ℕ × ℕ), BlockOk alo ahi blo bhi best →
      BlockOk alo ahi blo bhi (flmExtLow a b alo blo fuel best) := by
  intro fuel
  induction fuel with
  | zero => intro best h; exact h
  | succ n ih =>
      rintro ⟨bi, bj, bs⟩ h
      obtain ⟨h1, h2, h3, h4⟩ := h
      by_cases hc : alo < bi ∧ blo < bj ∧ a.getD (bi - 1) 'a' = b.getD (bj - 1) 'b'
      · simp only [flmExtLow, if_pos hc]
        apply ih
        refine ⟨?_, ?_, ?_, ?_⟩ <;> simp only at h1 h2 h3 h4 ⊢ <;> omega
      · simp only [flmExtLow, if_neg hc]
        exact ⟨h1, h2, h3, h4⟩

theorem flmExtHigh_ok (a b : List Char) (alo ahi blo bhi : ℕ) :
    ∀ (fuel : ℕ) (best : ℕ × ℕ × ℕ), BlockOk alo ahi blo bhi best →
      BlockOk alo ahi blo bhi (flmExtHigh a b ahi bhi fuel best) := by
  intro fuel
  induction fuel with
  | zero => intro best h; exact h
  | succ n ih =>
      rintro ⟨bi, bj, bs⟩ h
      obtain ⟨h1, h2, h3, h4⟩ := h
      by_cases hc : bi + bs < ahi ∧ bj + bs < bhi ∧
          a.getD (bi + bs) 'a' = b.getD (bj + bs) 'b'
      · simp only [flmExtHigh, if_pos hc]
        apply ih
        refine ⟨?_, ?_, ?_, ?_⟩ <;> simp only at h1 h2 h3 h4 ⊢ <;> omega
      · simp only [flmExtHigh, if_neg hc]
        exact ⟨h1, h2, h3, h4⟩

theorem findLongestMatch_ok (a b : List Char) (alo ahi blo bhi : ℕ)
    (h1 : alo ≤ ahi) (h2 : blo ≤ bhi) :
    BlockOk alo ahi blo bhi (findLongestMatch a b alo ahi blo bhi) := by
  unfold findLongestMatch
  apply flmExtHigh_ok
  apply flmExtLow_ok
  apply flmRows_ok a b alo ahi blo bhi (ahi - alo) alo [] (alo, blo, 0) (le_refl alo)
    (by omega) (by intro p hp; simp at hp)
  exact ⟨le_refl alo, le_refl blo, by simpa using h1, by simpa using h2⟩

theorem matchingTotal_le (a b : List Char) : ∀ (fuel alo ahi blo bhi : ℕ),
    alo ≤ ahi → blo ≤ bhi →
    matchingTotal a b fuel alo ahi blo bhi ≤ ahi - alo ∧
      matchingTotal a b fuel alo ahi blo bhi ≤ bhi - blo := by
  intro fuel
  induction fuel with
  | zero => intro alo ahi blo bhi _ _; simp [matchingTotal]
  | succ n ih =>
      intro alo ahi blo bhi h1 h2
      have hok := findLongestMatch_ok a b alo ahi blo bhi h1 h2
      obtain ⟨hb1, hb2, hb3, hb4⟩ := hok
      simp only [matchingTotal]
      by_cases hz : (findLongestMatch a b alo ahi blo bhi).2.2 = 0
      · rw [if_pos hz]
        omega
      · rw [if_neg hz]
        have hL := ih alo (findLongestMatch a b alo ahi blo bhi).1 blo
          (findLongestMatch a b alo ahi blo bhi).2.1 hb1 hb2
        have hR := ih ((findLongestMatch a b alo ahi blo bhi).1 +
            (findLongestMatch a b alo ahi blo bhi).2.2) ahi
          ((findLongestMatch a b alo ahi blo bhi).2.1 +
            (findLongestMatch a b alo ahi blo bhi).2.2) bhi (by omega) (by omega)
        constructor <;> omega

theorem scoreSimilarity_le_100 (q cl : List Char) : scoreSimilarity q cl ≤ 100 := by
  unfold scoreSimilarity
  by_cases hT : q.length + cl.length = 0
  · simp [hT]
  · rw [if_neg hT]
    have hM := matchingTotal_le q cl (q.length + cl.length + 1) 0 q.length 0 cl.length
      (by omega) (by omega)
    rw [Nat.sub_zero, Nat.sub_zero] at hM
    have h2M : 200 * difflibMatches q cl ≤ 100 * (q.length + cl.length) := by
      unfold difflibMatches
      omega
    calc 200 * difflibMatches q cl / (q.length + cl.length)
        ≤ 100 * (q.length + cl.length) / (q.length + cl.length) :=
          Nat.div_le_div_right h2M
      _ = 100 := Nat.mul_div_cancel 100 (by omega)

theorem scoreChoice_sub (q cl : List Char) (idx : ℕ) (h : subFind q cl = some idx) :
    scoreChoice q cl = 200 - (idx : ℤ) := by
  unfold scoreChoice
  rw [h]

theorem scoreChoice_nonsub_bounds (q cl : List Char) (h : subFind q cl = none) :
    0 ≤ scoreChoice q cl ∧ scoreChoice q cl ≤ 100 := by
  simp only [scoreChoice, h]
  constructor
  · exact_mod_cast Nat.zero_le _
  · exact_mod_cast scoreSimilarity_le_100 q cl

theorem fuzzy_matches_eq (query : List Char) (choices : List (List Char))
    (limit : ℕ) (minr : ℤ) (hq : toLowerL (stripL query) ≠ []) :
    fuzzy_matches query choices limit minr =
      ((sortByDesc Prod.fst (choices.filterMap fun ch =>
        if minr ≤ scoreChoice (toLowerL (stripL query)) (toLowerL ch) then
          some (scoreChoice (toLowerL (stripL query)) (toLowerL ch), ch)
        else none)).take limit).map Prod.snd := by
  simp only [fuzzy_matches, if_neg hq]


theorem fuzzy_scored_prop (q : List Char) (choices : List (List Char)) (minr : ℤ) :
    ∀ p ∈ (choices.filterMap fun ch =>
        if minr ≤ scoreChoice q (toLowerL ch) then
          some (scoreChoice q (toLowerL ch), ch)
        else none),
      p.1 = scoreChoice q (toLowerL p.2) ∧ minr ≤ p.1 := by
  intro p hp
  rw [List.mem_filterMap] at hp
  obtain ⟨a, _, hfa⟩ := hp
  by_cases hsc : minr ≤ scoreChoice q (toLowerL a)
  · rw [if_pos hsc] at hfa
    injection hfa with hfa
    subst hfa
    exact ⟨rfl, hsc⟩
  · rw [if_neg hsc] at hfa
    exact absurd hfa (by simp)

/-- Scores along the list returned by `fuzzy_matches` are non-increasing. -/
theorem fuzzy_matches_score_sorted (query : List Char) (choices : List (List Char))
    (limit : ℕ) (minr : ℤ) (hq : toLowerL (stripL query) ≠ [])
    (i j : ℕ) (hij : i < j)
    (hj : j < (fuzzy_matches query choices limit minr).length) :
    scoreChoice (toLowerL (stripL query))
        (toLowerL ((fuzzy_matches query choices limit minr).getD j [])) ≤
      scoreChoice (toLowerL (stripL query))
        (toLowerL ((fuzzy_matches query choices limit minr).getD i [])) := by
  have hfz := fuzzy_matches_eq query choices limit minr hq
  set q := toLowerL (stripL query) with hqdef
  set scored := choices.filterMap fun ch =>
      if minr ≤ scoreChoice q (toLowerL ch) then
        some (scoreChoice q (toLowerL ch), ch)
      else none
    with hscored
  set T := (sortByDesc Prod.fst scored).take limit with hTdef
  have hjT : j < T.length := by
    rw [hfz, List.length_map] at hj
    exact hj
  have hiT : i < T.length := lt_trans hij hjT
  have ej : (fuzzy_matches query choices limit minr).getD j [] = (T.get ⟨j, hjT⟩).2 := by
    rw [hfz, List.getD_eq_getElem _ _ (by rw [List.length_map]; exact hjT),
      List.getElem_map, List.get_eq_getElem]
  have ei : (fuzzy_matches query choices limit minr).getD i [] = (T.get ⟨i, hiT⟩).2 := by
    rw [hfz, List.getD_eq_getElem _ _ (by rw [List.length_map]; exact hiT),
      List.getElem_map, List.get_eq_getElem]
  have hpair : T.Pairwise (fun a b => b.1 ≤ a.1) :=
    List.Pairwise.sublist (List.take_sublist _ _) (sortByDesc_pairwise _ _)
  have hg := List.pairwise_iff_get.mp hpair ⟨i, hiT⟩ ⟨j, hjT⟩ hij
  have hmi := fuzzy_scored_prop q choices minr _
    ((sortByDesc_mem _ _ _).mp (List.mem_of_mem_take (List.get_mem T i hiT)))
  have hmj := fuzzy_scored_prop q choices minr _
    ((sortByDesc_mem _ _ _).mp (List.mem_of_mem_take (List.get_mem T j hjT)))
  rw [ej, ei, ← hmi.1, ← hmj.1]
  exact hg

/-- C3 amended: in the list returned by `fuzzy_matches`, a substring match
whose first-occurrence index is at most 99 (score ≥ 101) appears before
every returned non-substring choice, and among returned substring matches a
strictly smaller first-occurrence index means a strictly earlier position;
at most `limit` choices are returned, so a substring match can be left out
when `limit` (or the min-score threshold on its score `200 - index`)
excludes it. -/
theorem fuzzy_substring_ranking (query : List Char) (choices : List (List Char))
    (limit : ℕ) (minr : ℤ) (hq : toLowerL (stripL query) ≠ [])
    (i j : ℕ) (hi : i < (fuzzy_matches query choices limit minr).length)
    (hj : j < (fuzzy_matches query choices limit minr).length) :
    (∀ idxi : ℕ,
      subFind (toLowerL (stripL query))
          (toLowerL ((fuzzy_matches query choices limit minr).getD i [])) =
        some idxi →
      idxi ≤ 99 →
      subFind (toLowerL (stripL query))
          (toLowerL ((fuzzy_matches query choices limit minr).getD j [])) = none →
      i < j) ∧
      (∀ idxi idxj : ℕ,
        subFind (toLowerL (stripL query))
            (toLowerL ((fuzzy_matches query choices limit minr).getD i [])) =
          some idxi →
        subFind (toLowerL (stripL query))
            (toLowerL ((fuzzy_matches query choices limit minr).getD j [])) =
          some idxj →
        idxi < idxj → i < j) ∧
      (fuzzy_matches query choices limit minr).length ≤ limit := by
  refine ⟨?_, ?_, ?_⟩
  · intro idxi hsubi hidxi hsubj
    by_contra hcon
    push_neg at hcon
    rcases lt_or_eq_of_le hcon with hlt | heq
    · have hg := fuzzy_matches_score_sorted query choices limit minr hq j i hlt hi
      rw [scoreChoice_sub _ _ _ hsubi] at hg
      have hb := (scoreChoice_nonsub_bounds _ _ hsubj).2
      omega
    · rw [heq] at hsubj
      rw [hsubj] at hsubi
      exact Option.noConfusion hsubi
  · intro idxi idxj hsubi hsubj hlt
    by_contra hcon
    push_neg at hcon
    rcases lt_or_eq_of_le hcon with hji | heq
    · have hg := fuzzy_matches_score_sorted query choices limit minr hq j i hji hi
      rw [scoreChoice_sub _ _ _ hsubi, scoreChoice_sub _ _ _ hsubj] at hg
      omega
    · rw [heq] at hsubj
      rw [hsubj] at hsubi
      injection hsubi with hsubi
      omega
  · rw [fuzzy_matches_eq query choices limit minr hq, List.length_map,
      List.length_take]
    omega

def qC3 : List Char := ['a', 'b']

def subs200 : List (List Char) :=
  ['c', 'd', 'e', 'f', 'g', 'h', 'i', 'j', 'k', 'l', 'm', 'n', 'o'].map
    fun c => ['a', 'b', c]

def cNonsub : List Char := ['a', 'x', 'b']

def cSub80 : List Char := List.replicate 120 'w' ++ ['a', 'b']

def cSub70 : List Char := List.replicate 130 'w' ++ ['a', 'b']

def choicesC3 : List (List Char) := subs200 ++ [cNonsub, cSub80, cSub70]

/-- C3 counterexample (default limit 15, default min_ratio 40): with query
"ab" and 16 choices — 13 substring matches at index 0, the non-substring
"axb" (similarity score 80), a substring match at index 120 (score 80) and
one at index 130 (score 70) — the returned list drops the last substring
match (so not every substring match appears), and the non-substring "axb"
is returned ahead of the index-120 substring match (equal scores, stable
sort keeps input order), so substring matches do not always outrank
non-substring matches. -/
theorem fuzzy_substring_counterexample :
    fuzzy_matches qC3 choicesC3 15 40 = subs200 ++ [cNonsub, cSub80] ∧
      (subFind (toLowerL (stripL qC3)) (toLowerL cSub70)).isSome = true ∧
      cSub70 ∉ fuzzy_matches qC3 choicesC3 15 40 ∧
      subFind (toLowerL (stripL qC3)) (toLowerL cNonsub) = none ∧
      subFind (toLowerL (stripL qC3)) (toLowerL cSub80) = some 120 := by
  set_option maxRecDepth 100000 in decide

/-- Witness for the amended C3 at a concrete query and choice list. -/
theorem fuzzy_substring_ranking_witness :
    (fuzzy_matches qC3 [['a', 'b']] 15 40).length ≤ 15 :=
  (fuzzy_substring_ranking qC3 [['a', 'b']] 15 40 (by decide) 0 0 (by decide)
    (by decide)).2.2

-- --- C5: similarity scoring ---

theorem scoreSimilarity_eq_floor (q cl : List Char) :
    (scoreSimilarity q cl : ℤ) = ⌊100 * ratioExact q cl⌋ := by
  unfold scoreSimilarity ratioExact
  by_cases hT : q.length + cl.length = 0
  · rw [if_pos hT, if_pos hT]
    norm_num
  · rw [if_neg hT, if_neg hT]
    have hx : (100 : ℚ) * (2 * (difflibMatches q cl : ℚ) /
        ((q.length + cl.length : ℕ) : ℚ)) =
        ((200 * difflibMatches q cl : ℕ) : ℚ) / ((q.length + cl.length : ℕ) : ℚ) := by
      push_cast
      ring
    rw [hx]
    have hx0 : (0 : ℚ) ≤ ((200 * difflibMatches q cl : ℕ) : ℚ) /
        ((q.length + cl.length : ℕ) : ℚ) := by positivity
    have h1 : (⌊((200 * difflibMatches q cl : ℕ) : ℚ) /
        ((q.length + cl.length : ℕ) : ℚ)⌋₊ : ℤ) =
        ⌊((200 * difflibMatches q cl : ℕ) : ℚ) /
          ((q.length + cl.length : ℕ) : ℚ)⌋ := by
      rw [← Int.floor_toNat, Int.toNat_of_nonneg (Int.floor_nonneg.2 hx0)]
    rw [← h1, Nat.floor_div_eq_div]

/-- C5 amended: for a non-blank query, a non-substring choice is scored with
the TRUNCATED percentage `int(100 * ratio)` = `⌊100 * ratio⌋` (not the
rounded one as the spec claims), an integer in [0, 100]; and every returned
choice scores at least `min_ratio` (default 40), i.e. lower-scoring choices
are excluded. -/
theorem similarity_scoring_spec (query : List Char) (choices : List (List Char))
    (limit : ℕ) (minr : ℤ) (hq : toLowerL (stripL query) ≠ []) :
    (∀ ch : List Char,
      subFind (toLowerL (stripL query)) (toLowerL ch) = none →
      scoreChoice (toLowerL (stripL query)) (toLowerL ch) =
          ⌊100 * ratioExact (toLowerL (stripL query)) (toLowerL ch)⌋ ∧
        0 ≤ scoreChoice (toLowerL (stripL query)) (toLowerL ch) ∧
        scoreChoice (toLowerL (stripL query)) (toLowerL ch) ≤ 100) ∧
      (∀ c ∈ fuzzy_matches query choices limit minr,
        minr ≤ scoreChoice (toLowerL (stripL query)) (toLowerL c)) := by
  constructor
  · intro ch hch
    refine ⟨?_, (scoreChoice_nonsub_bounds _ _ hch).1, (scoreChoice_nonsub_bounds _ _ hch).2⟩
    simp only [scoreChoice, hch]
    exact scoreSimilarity_eq_floor _ _
  · intro c hc
    rw [fuzzy_matches_eq query choices limit minr hq] at hc
    rw [List.mem_map] at hc
    obtain ⟨p, hp, hpc⟩ := hc
    have hprop := fuzzy_scored_prop (toLowerL (stripL query)) choices minr p
      ((sortByDesc_mem _ _ _).mp (List.mem_of_mem_take hp))
    rw [← hpc, ← hprop.1]
    exact hprop.2

/-- C5 counterexample: query "ab" against choice "a" — the similarity ratio
is 2/3, the code truncates `int(100 * 2/3) = 66` while the spec's
`round(100 * 2/3) = 67`. -/
theorem similarity_truncation_counterexample :
    scoreChoice ['a', 'b'] ['a'] = 66 ∧
      pythonRound (100 * ratioExact ['a', 'b'] ['a']) = 67 ∧
      (66 : ℤ) ≠ 67 := by
  refine ⟨by decide, ?_, by decide⟩
  have hM : difflibMatches ['a', 'b'] ['a'] = 1 := by decide
  simp only [ratioExact, hM, List.length_cons, List.length_nil]
  norm_num [pythonRound]

/-- Witness for the amended C5 at a concrete non-substring pair. -/
theorem similarity_scoring_spec_witness :
    scoreChoice (toLowerL (stripL ['a', 'b'])) (toLowerL ['a']) =
        ⌊100 * ratioExact (toLowerL (stripL ['a', 'b'])) (toLowerL ['a'])⌋ ∧
      0 ≤ scoreChoice (toLowerL (stripL ['a', 'b'])) (toLowerL ['a']) ∧
      scoreChoice (toLowerL (stripL ['a', 'b'])) (toLowerL ['a']) ≤ 100 :=
  (similarity_scoring_spec ['a', 'b'] [] 15 40 (by decide)).1 ['a'] (by decide)
